import Mathlib

/-!
# Handle table and handle objects of `libglusterfs/src/fd.c`

A shallow embedding of `fd.c`.  Pointers are addresses (`Nat`), the null pointer is
`none`.  Values of C type `uint32_t` are natural numbers reduced modulo `2 ^ 32` at every
place where the C code stores one.  A computation whose C behaviour is undefined (a read or
write outside the slot array, a dereference of a freed or null object, a failed `assert`)
has the result `none`.
-/

namespace GlusterFd

/-! ## Machine constants -/

/-- Number of values of the C type `uint32_t`. -/
def UINT32_MOD : Nat := 2 ^ 32

/-- Largest value of the C type `int32_t`. -/
def INT32_MAX : Nat := 2 ^ 31 - 1

/-- The value of `sizeof (fd_t *)` on a 64-bit build. -/
def sizeof_fdptr : Nat := 8

/-- The block unit `1024 / sizeof (fd_t *)` of `gf_fd_fdtable_expand`. -/
def fd_block : Nat := 1024 / sizeof_fdptr

/-- The value of `EINVAL`. -/
def EINVAL : Int := 22

/-! ## Data model -/

/-- Address of an `fd_t`. A C value of type `fd_t *` is an `Option fd_ptr`. -/
abbrev fd_ptr := Nat

/-- Address of an `inode_t`. -/
abbrev inode_ptr := Nat

/-- The `fdtable_t` record: `max_fds` slots, slot `j` readable and writable only for
`j < max_fds`.  A table whose `fds` pointer is `NULL` is the one with `max_fds = 0`
(this is the state `calloc` leaves in `gf_fd_fdtable_alloc`). -/
structure fdtable_t where
  max_fds : Nat
  fds : Nat → Option fd_ptr

/-- The `fd_t` record.  `ctx` lists the keys of `ctx->members_list` in iteration order.
The list node `inode_list` is represented by membership in the owner's `fd_list`.
Modelled from the spec: the declaration of `refcount` (in `fd.h`) is not part of the
sources; it is the unsigned count of outstanding references. -/
structure fd_t where
  pid : Int
  inode : Option inode_ptr
  refcount : Nat
  ctx : List String

/-- Modelled from the spec: a module of the graph (`xlator_t`, declared outside `fd.c`)
with its name and its two optional callback slots `cbks->release`, `cbks->releasedir`. -/
structure xlator_t where
  name : String
  has_release : Bool
  has_releasedir : Bool

/-- The part of `inode_t` that `fd.c` touches: `S_ISDIR (st_mode)`, the intrusive list
`fd_list` read from its head, and the module graph `table->xl`. -/
structure inode_t where
  is_dir : Bool
  fd_list : List fd_ptr
  xl : List xlator_t

/-- Observable steps of `fd_destroy` and of the external calls made by `fd.c`. -/
inductive event where
  | destroy_enter (fd : fd_ptr)
  | releasedir (xl : String) (fd : fd_ptr)
  | release (xl : String) (fd : fd_ptr)
  | log_critical (fd : fd_ptr) (key : String)
  | inode_ref (inode : inode_ptr)
  | inode_unref (inode : inode_ptr)
  | dict_destroy (fd : fd_ptr)
  | free (fd : fd_ptr)
  deriving DecidableEq, Repr

/-- The heap: the live `fd_t` objects, the live inodes, and the events so far. -/
structure world where
  fd : fd_ptr → Option fd_t
  inode : inode_ptr → Option inode_t
  trace : List event

/-- Store `v` at address `p` of a map of objects. -/
def store {α : Type} (m : Nat → Option α) (p : Nat) (v : Option α) : Nat → Option α :=
  fun q => if q = p then v else m q

/-! ## Growth -/

/-- The loop `while (tmp != 1) { if (tmp % 2) remainder = 1; tmp /= 2; cnt++; }` of
`gf_roundup_power_of_two`, run for at most `fuel` iterations; returns `(cnt, remainder)`. -/
def roundup_loop : Nat → Nat → Nat → Bool → Nat × Bool
  | 0, _, cnt, remainder => (cnt, remainder)
  | fuel + 1, tmp, cnt, remainder =>
    if tmp ≠ 1 then
      roundup_loop fuel (tmp / 2) (cnt + 1) (if tmp % 2 ≠ 0 then true else remainder)
    else (cnt, remainder)

/-- The function `gf_roundup_power_of_two (uint32_t nr)`.  The test `nr < 0` is never true
for an unsigned argument.  A `uint32_t` is halved to `1` within `32` iterations.  The
shift `0x1 << (cnt + 1)` is stored in a `uint32_t`. -/
def gf_roundup_power_of_two (nr : Nat) : Nat :=
  if nr = 0 ∨ nr = 1 then 1
  else
    let r := roundup_loop 32 nr 0 false
    if r.2 then 2 ^ (r.1 + 1) % UINT32_MOD else nr

/-- The function `gf_fd_fdtable_expand (fdtable, nr)` for a non-null table and a
successful `calloc`; its C return value is then always `0` and is not represented.
`cpy` is a `uint32_t` byte count; `memcpy` of more bytes than the new array holds is
undefined. -/
def gf_fd_fdtable_expand (fdtable : fdtable_t) (nr : Nat) : Option fdtable_t :=
  let nr1 := nr / fd_block
  let nr2 := gf_roundup_power_of_two ((nr1 + 1) % UINT32_MOD)
  let nr3 := nr2 * fd_block % UINT32_MOD
  let cpy := fdtable.max_fds * sizeof_fdptr % UINT32_MOD
  if cpy ≤ nr3 * sizeof_fdptr then
    some { max_fds := nr3,
           fds := fun j => if j < cpy / sizeof_fdptr then fdtable.fds j else none }
  else none

/-- The function `gf_fd_fdtable_alloc`, for a successful `calloc`. -/
def gf_fd_fdtable_alloc : Option fdtable_t :=
  gf_fd_fdtable_expand { max_fds := 0, fds := fun _ => none } 0

/-! ## Reference counting -/

/-- The function `_fd_ref` on a live object. -/
def _fd_ref (f : fd_t) : fd_t :=
  { f with refcount := f.refcount + 1 }

/-- The function `fd_ref`: a null argument is returned unchanged; otherwise the object
and its `inode` (whose lock is taken) must be live. -/
def fd_ref (fd : Option fd_ptr) (w : world) : Option (Option fd_ptr × world) :=
  match fd with
  | none => some (none, w)
  | some p =>
    match w.fd p with
    | none => none
    | some f =>
      match f.inode with
      | none => none
      | some i =>
        match w.inode i with
        | none => none
        | some _ => some (some p, { w with fd := store w.fd p (some (_fd_ref f)) })

/-- The macro `list_del_init (&fd->inode_list)`: afterwards the node is on no list. -/
def list_del_init (p : fd_ptr) (ino : inode_t) : inode_t :=
  { ino with fd_list := ino.fd_list.filter (fun q => q ≠ p) }

/-- Modelled from the spec: `xlator_search_by_name (fd->inode->table->xl, key)`, defined
outside `fd.c`, finds the module of the graph with the given name. -/
def xlator_search_by_name (xl : List xlator_t) (key : String) : Option xlator_t :=
  xl.find? (fun x => x.name = key)

/-- One iteration of a notification loop of `fd_destroy` for the entry `key`. -/
def destroy_notify (is_dir : Bool) (xl : List xlator_t) (p : fd_ptr) (key : String) :
    event :=
  match xlator_search_by_name xl key with
  | none => event.log_critical p key
  | some x =>
    if is_dir then
      (if x.has_releasedir then event.releasedir x.name p else event.log_critical p key)
    else
      (if x.has_release then event.release x.name p else event.log_critical p key)

/-- The function `fd_destroy` on a non-null pointer to a live object. -/
def fd_destroy (p : fd_ptr) (w : world) : Option world :=
  match w.fd p with
  | none => none
  | some f =>
    let w1 := { w with trace := w.trace ++ [event.destroy_enter p] }
    match f.inode with
    | none => some w1
    | some i =>
      match w.inode i with
      | none => none
      | some ino =>
        some { w1 with
               fd := store w.fd p none,
               trace := w1.trace ++ f.ctx.map (destroy_notify ino.is_dir ino.xl p)
                          ++ [event.inode_unref i, event.dict_destroy p, event.free p] }

/-- The function `fd_unref`: `_fd_unref` under the owner's lock, then `fd_destroy` when
the count read under the lock is `0`. -/
def fd_unref (fd : Option fd_ptr) (w : world) : Option world :=
  match fd with
  | none => some w
  | some p =>
    match w.fd p with
    | none => none
    | some f =>
      match f.inode with
      | none => none
      | some i =>
        match w.inode i with
        | none => none
        | some ino =>
          if f.refcount = 0 then none
          else
            let f1 := { f with refcount := f.refcount - 1 }
            if f1.refcount = 0 then
              fd_destroy p { w with fd := store w.fd p (some f1),
                                    inode := store w.inode i (some (list_del_init p ino)) }
            else some { w with fd := store w.fd p (some f1) }

/-! ## Handle objects and their owner -/

/-- The function `fd_create (inode, pid)`; `p` is the address `calloc` returns for the
new object, an address that holds no live object.  `get_new_dict` gives an empty
context. -/
def fd_create (inode : Option inode_ptr) (pid : Int) (p : fd_ptr) (w : world) :
    Option (Option fd_ptr × world) :=
  match inode with
  | none => some (none, w)
  | some i =>
    match w.inode i with
    | none => none
    | some _ =>
      let f : fd_t := { pid := pid, inode := some i, refcount := 0, ctx := [] }
      some (some p, { w with fd := store w.fd p (some (_fd_ref f)),
                             trace := w.trace ++ [event.inode_ref i] })

/-- The function `fd_bind`: `fd->inode` is read before the null test, so a null
argument is undefined; `list_add` links the node right after the list head.  On a node
that is already linked in the owner's list `list_add` leaves a cyclic chain, which is no
list: that call has no result here. -/
def fd_bind (fd : Option fd_ptr) (w : world) : Option (Option fd_ptr × world) :=
  match fd with
  | none => none
  | some p =>
    match w.fd p with
    | none => none
    | some f =>
      match f.inode with
      | none => none
      | some i =>
        match w.inode i with
        | none => none
        | some ino =>
          if p ∈ ino.fd_list then none
          else
            some (some p,
              { w with
                inode := store w.inode i (some { ino with fd_list := p :: ino.fd_list }) })

/-- The `list_for_each_entry` loop of `fd_lookup`: the first entry accepted for `pid`. -/
def fd_lookup_scan (w : world) (pid : Int) : List fd_ptr → Option (Option fd_ptr)
  | [] => some none
  | q :: rest =>
    match w.fd q with
    | none => none
    | some f =>
      if pid ≠ 0 then
        (if f.pid = pid then some (some q) else fd_lookup_scan w pid rest)
      else some (some q)

/-- The function `fd_lookup (inode, pid)` on a non-null inode. -/
def fd_lookup (inode : inode_ptr) (pid : Int) (w : world) : Option (Option fd_ptr × world) :=
  match w.inode inode with
  | none => none
  | some ino =>
    match fd_lookup_scan w pid ino.fd_list with
    | none => none
    | some none => some (none, w)
    | some (some q) =>
      match w.fd q with
      | none => none
      | some f => some (some q, { w with fd := store w.fd q (some (_fd_ref f)) })

/-- The function `fd_list_empty (inode)` on a non-null inode. -/
def fd_list_empty (inode : inode_ptr) (w : world) : Option Bool :=
  (w.inode inode).map (fun ino => ino.fd_list.isEmpty)

/-! ## Handle table operations -/

/-- The loop `while (fdtable->max_fds < fd) gf_fd_fdtable_expand (fdtable, max_fds + 1)`
of `gf_fd_unused_get2`, run for at most `fuel` tests of its condition. -/
def unused_get2_grow : Nat → fdtable_t → Nat → Option fdtable_t
  | 0, _, _ => none
  | fuel + 1, t, fd =>
    if t.max_fds < fd then
      (gf_fd_fdtable_expand t ((t.max_fds + 1) % UINT32_MOD)).bind
        (fun t1 => unused_get2_grow fuel t1 fd)
    else some t

/-- The function `gf_fd_unused_get2 (fdtable, fdptr, fd)`: the returned `int32_t`, the
table and the heap afterwards.  The slot `fds[fd]` exists only for `fd < max_fds`. -/
def gf_fd_unused_get2 (fdtable : Option fdtable_t) (fdptr : Option fd_ptr) (fd : Int)
    (w : world) : Option (Int × Option fdtable_t × world) :=
  match fdtable, fdptr with
  | some t, some p =>
    if fd < 0 then some (-1, some t, w)
    else
      match unused_get2_grow (fd.toNat + 1) t fd.toNat with
      | none => none
      | some t1 =>
        if fd.toNat < t1.max_fds then
          match t1.fds fd.toNat with
          | none =>
            (fd_ref (some p) w).map
              (fun r => (fd, some { t1 with fds := store t1.fds fd.toNat (some p) }, r.2))
          | some _ => some (-1, some t1, w)
        else none
  | _, _ => some (-1, fdtable, w)

/-- The loop `for (i = 0; i < fdtable->max_fds; i++) if (!fdtable->fds[i]) break;` of
`gf_fd_unused_get` with `n` slots left to visit from index `i`; returns the final `i`. -/
def unused_get_scan (fds : Nat → Option fd_ptr) : Nat → Nat → Nat
  | 0, i => i
  | n + 1, i => if fds i = none then i else unused_get_scan fds n (i + 1)

/-- The function `gf_fd_unused_get (fdtable, fdptr)`: the returned `int32_t` and the
table afterwards.  The counter `i` is an `int32_t`. -/
def gf_fd_unused_get (fdtable : Option fdtable_t) (fdptr : Option fd_ptr) :
    Option (Int × Option fdtable_t) :=
  match fdtable, fdptr with
  | some t, some p =>
    let i := unused_get_scan t.fds t.max_fds 0
    if INT32_MAX < i then none
    else if i < t.max_fds then
      some ((i : Int), some { t with fds := store t.fds i (some p) })
    else
      match gf_fd_fdtable_expand t ((t.max_fds + 1) % UINT32_MOD) with
      | none => none
      | some t1 =>
        if i < t1.max_fds then
          some ((i : Int), some { t1 with fds := store t1.fds i (some p) })
        else none
  | _, _ => some (EINVAL, fdtable)

/-- The function `gf_fd_put (fdtable, fd)`: the table and the heap afterwards. -/
def gf_fd_put (fdtable : Option fdtable_t) (fd : Int) (w : world) :
    Option (Option fdtable_t × world) :=
  match fdtable with
  | none => some (none, w)
  | some t =>
    if fd < 0 then some (some t, w)
    else if ¬ (fd.toNat < t.max_fds) then some (some t, w)
    else
      (fd_unref (t.fds fd.toNat) w).map
        (fun w1 => (some { t with fds := store t.fds fd.toNat none }, w1))

/-- The function `gf_fd_fdptr_get (fdtable, fd)`: the returned pointer, the table and
the heap afterwards. -/
def gf_fd_fdptr_get (fdtable : Option fdtable_t) (fd : Int) (w : world) :
    Option (Option fd_ptr × Option fdtable_t × world) :=
  match fdtable with
  | none => some (none, none, w)
  | some t =>
    if fd < 0 then some (none, some t, w)
    else if ¬ (fd.toNat < t.max_fds) then some (none, some t, w)
    else (fd_ref (t.fds fd.toNat) w).map (fun r => (t.fds fd.toNat, some t, r.2))


/-! ## Sequences of calls -/

/-- The effect of `k` successive calls `fd_unref (fd)`. -/
def fd_unref_times : Nat → Option fd_ptr → world → Option world
  | 0, _, w => some w
  | k + 1, fd, w => (fd_unref fd w).bind (fd_unref_times k fd)

/-- A call on one handle object: `fd_ref` or `fd_unref`. -/
inductive ref_op where
  | ref
  | unref
  deriving DecidableEq, Repr

/-- The effect of a sequence of `fd_ref` / `fd_unref` calls on the object at `p`. -/
def run_ref_ops (p : fd_ptr) : List ref_op → world → Option world
  | [], w => some w
  | ref_op.ref :: l, w => (fd_ref (some p) w).bind (fun r => run_ref_ops p l r.2)
  | ref_op.unref :: l, w => (fd_unref (some p) w).bind (run_ref_ops p l)

/-- A call on the handle table: `gf_fd_unused_get` with a non-null object, or
`gf_fd_put` with an index. -/
inductive table_op where
  | allocate (fdptr : fd_ptr)
  | release (fd : Int)

/-- The effect of a sequence of table calls: the values returned by the `allocate`
calls in order, and the table and heap at the end. -/
def run_table_ops : List table_op → Option fdtable_t → world →
    Option (List Int × Option fdtable_t × world)
  | [], t, w => some ([], t, w)
  | table_op.allocate o :: l, t, w =>
    (gf_fd_unused_get t (some o)).bind
      (fun r => (run_table_ops l r.2 w).map (fun s => (r.1 :: s.1, s.2)))
  | table_op.release i :: l, t, w =>
    (gf_fd_put t i w).bind (fun r => run_table_ops l r.1 r.2)

/-! ## Example states -/

/-- A heap with one live inode at address `0` (a regular file, nothing open) and no
handle object. -/
def world_empty : world :=
  { fd := fun _ => none,
    inode := fun i => if i = 0 then some { is_dir := false, fd_list := [], xl := [] } else none,
    trace := [] }

/-- The heap a call leaves, `world_empty` when the call has no result. -/
def world_after (r : Option (Option fd_ptr × world)) : world :=
  match r with
  | some x => x.2
  | none => world_empty

/-- The heap after `fd_create (inode 0, pid 7)` placed the new object at address `1`. -/
def world_created : world := world_after (fd_create (some 0) 7 1 world_empty)

/-- The heap after `fd_create` and `fd_bind` of the object at address `1`. -/
def world_bound : world := world_after (fd_bind (some 1) world_created)

/-- The heap after `fd_create`, `fd_bind` and two calls of `fd_ref`. -/
def world_ref3 : world :=
  world_after (fd_ref (some 1) (world_after (fd_ref (some 1) world_bound)))

/-- The table after one `gf_fd_unused_get` of the object at address `1` on a fresh table. -/
def table_one : Option fdtable_t :=
  (gf_fd_unused_get gf_fd_fdtable_alloc (some 1)).bind (fun r => r.2)

/-- A table of `2 ^ 29` slots, each of them holding the object at address `1`. -/
def table_full : fdtable_t :=
  { max_fds := 2 ^ 29, fds := fun _ => some 1 }

/-- A table of `128` slots whose slot `0` holds the object at address `1`. -/
def table_small : fdtable_t :=
  { max_fds := 128, fds := fun j => if j = 0 then some 1 else none }

/-! ## Parts of `fd_unref` and of the growth, taken apart -/

/-- The function `_fd_unref` on a live object: the `assert`, the decrement, and
`list_del_init` when the count has reached `0`; `i` is the owner whose list holds the
node. -/
def _fd_unref (p : fd_ptr) (w : world) : Option world :=
  match w.fd p with
  | none => none
  | some f =>
    match f.inode with
    | none => none
    | some i =>
      match w.inode i with
      | none => none
      | some ino =>
        if f.refcount = 0 then none
        else
          let f1 := { f with refcount := f.refcount - 1 }
          if f1.refcount = 0 then
            some { w with fd := store w.fd p (some f1),
                          inode := store w.inode i (some (list_del_init p ino)) }
          else some { w with fd := store w.fd p (some f1) }

/-- The result of `gf_roundup_power_of_two (nr)` before the shift `0x1 << (cnt + 1)` is
cut to 32 bits. -/
def roundup_raw (nr : Nat) : Nat :=
  if nr = 0 ∨ nr = 1 then 1
  else
    let r := roundup_loop 32 nr 0 false
    if r.2 then 2 ^ (r.1 + 1) else nr

/-- The values computed by one call `gf_fd_fdtable_expand (fdtable, nr)` on a table of
`max_fds` slots, each before it is stored in its `uint32_t` variable: `nr + 1` after the
division, the rounded value, the product with the block unit, and the byte count
`oldmax_fds * sizeof (fd_t *)`. -/
def expand_raw_values (max_fds nr : Nat) : List Nat :=
  [nr / fd_block + 1,
   roundup_raw ((nr / fd_block + 1) % UINT32_MOD),
   gf_roundup_power_of_two ((nr / fd_block + 1) % UINT32_MOD) * fd_block,
   max_fds * sizeof_fdptr]

/-! ## Statements of the specification -/

/-- The formula of the specification for rounding up: `2 ^ bitlength (nr - 1)`, where the
bit length of `x` is the number of binary digits of `x`. -/
def roundup_bit_length (nr : Nat) : Nat :=
  2 ^ Nat.size (nr - 1)

/-- The events that are calls of a module callback. -/
def is_callback : event → Bool
  | event.release _ _ => true
  | event.releasedir _ _ => true
  | _ => false

/-- The callback the specification expects for the entry `key`: the callback for the
owner's kind of the module named `key`, when the module exists and has that callback. -/
def expected_callback (is_dir : Bool) (xl : List xlator_t) (p : fd_ptr) (key : String) :
    Option event :=
  match xlator_search_by_name xl key with
  | none => none
  | some x =>
    if is_dir then (if x.has_releasedir then some (event.releasedir x.name p) else none)
    else (if x.has_release then some (event.release x.name p) else none)

/-- The tables reachable from `gf_fd_fdtable_alloc` by the four public table operations,
called with any arguments of their C types (the index is an `int32_t`). -/
inductive reachable_table : fdtable_t → Prop where
  | alloc (t : fdtable_t) : gf_fd_fdtable_alloc = some t → reachable_table t
  | allocate (t t1 : fdtable_t) (fdptr : Option fd_ptr) (r : Int) :
      reachable_table t → gf_fd_unused_get (some t) fdptr = some (r, some t1) →
      reachable_table t1
  | allocate_at (t t1 : fdtable_t) (fdptr : Option fd_ptr) (fd r : Int) (w w1 : world) :
      reachable_table t → fd ≤ (INT32_MAX : Int) →
      gf_fd_unused_get2 (some t) fdptr fd w = some (r, some t1, w1) → reachable_table t1
  | release (t t1 : fdtable_t) (fd : Int) (w w1 : world) :
      reachable_table t → gf_fd_put (some t) fd w = some (some t1, w1) → reachable_table t1
  | get (t t1 : fdtable_t) (fd : Int) (r : Option fd_ptr) (w w1 : world) :
      reachable_table t → gf_fd_fdptr_get (some t) fd w = some (r, some t1, w1) →
      reachable_table t1

/-- The heaps reachable from a heap without handle objects, in which every owner's list
is empty, by `fd_create` (at an unused address), `fd_bind` (of an object that is not yet
on a list), `fd_ref`, `fd_unref` and `fd_lookup`. -/
inductive reachable_world : world → Prop where
  | init (w : world) : (∀ p, w.fd p = none) →
      (∀ i ino, w.inode i = some ino → ino.fd_list = []) → reachable_world w
  | create (w w1 : world) (inode : Option inode_ptr) (pid : Int) (p : fd_ptr)
      (r : Option fd_ptr) : reachable_world w → w.fd p = none →
      fd_create inode pid p w = some (r, w1) → reachable_world w1
  | bind (w w1 : world) (p : fd_ptr) (r : Option fd_ptr) : reachable_world w →
      (∀ i ino, w.inode i = some ino → p ∉ ino.fd_list) →
      fd_bind (some p) w = some (r, w1) → reachable_world w1
  | ref (w w1 : world) (fd r : Option fd_ptr) : reachable_world w →
      fd_ref fd w = some (r, w1) → reachable_world w1
  | unref (w w1 : world) (fd : Option fd_ptr) : reachable_world w →
      fd_unref fd w = some w1 → reachable_world w1
  | lookup (w w1 : world) (inode : inode_ptr) (pid : Int) (r : Option fd_ptr) :
      reachable_world w → fd_lookup inode pid w = some (r, w1) → reachable_world w1

/-! ## More example states -/

/-- The heap after a second object (pid `7`, address `2`) was created and bound on the
inode of `world_bound`: the object at `1` was bound first, the object at `2` second. -/
def world_two : world :=
  world_after (fd_bind (some 2) (world_after (fd_create (some 0) 7 2 world_bound)))

/-- A heap with a directory at address `0` whose graph has the modules `a` (both
callbacks), `b` (only `release`) and `c` (only `releasedir`), and an object at address
`1` whose context has the keys `a`, `x`, `b`, `c` in this order. -/
def world_dir : world :=
  { fd := fun p => if p = 1 then
      some { pid := 7, inode := some 0, refcount := 1, ctx := ["a", "x", "b", "c"] } else none,
    inode := fun i => if i = 0 then
      some { is_dir := true, fd_list := [],
             xl := [⟨"a", true, true⟩, ⟨"b", true, false⟩, ⟨"c", false, true⟩] } else none,
    trace := [] }

/-- The heap `world_dir` after `fd_bind` of its object: the directory lists the object
at address `1`. -/
def world_dir_bound : world := world_after (fd_bind (some 1) world_dir)

/-- The table after `gf_fd_unused_get2` installed the object at address `1` at index
`536870911` of a fresh table: a table of `2 ^ 29` slots. -/
def table_wide : Option fdtable_t :=
  (gf_fd_unused_get2 gf_fd_fdtable_alloc (some 1) 536870911 world_bound).bind (fun r => r.2.1)

/-- The state invariant of the handle objects: every live object has a positive count,
and every entry of an owner's list is a live object whose `inode` is that owner. -/
def listed_live (w : world) : Prop :=
  (∀ p f, w.fd p = some f → 0 < f.refcount) ∧
  (∀ i ino q, w.inode i = some ino → q ∈ ino.fd_list →
    ∃ f, w.fd q = some f ∧ f.inode = some i)

/-! ## Sequences of calls on handle objects -/

/-- A call on the handle objects: `fd_create`, `fd_bind` of a non-null object, `fd_ref`,
`fd_unref` or `fd_lookup`. -/
inductive fd_op where
  | create (inode : Option inode_ptr) (pid : Int) (p : fd_ptr)
  | bind (p : fd_ptr)
  | ref (fd : Option fd_ptr)
  | unref (fd : Option fd_ptr)
  | lookup (inode : inode_ptr) (pid : Int)

/-- The heap after one call.  For `fd_create` the address `p` is the one `calloc`
returns, which is never the address of a live object. -/
def fd_step (op : fd_op) (w : world) : Option world :=
  match op with
  | fd_op.create inode pid p =>
    if (w.fd p).isSome then none else (fd_create inode pid p w).map (fun r => r.2)
  | fd_op.bind p => (fd_bind (some p) w).map (fun r => r.2)
  | fd_op.ref fd => (fd_ref fd w).map (fun r => r.2)
  | fd_op.unref fd => fd_unref fd w
  | fd_op.lookup inode pid => (fd_lookup inode pid w).map (fun r => r.2)

/-- The record of the bindings, kept beside the heap: the pairs (owner, handle) of the
handles that were bound and are still open, in the order in which they were bound, the
earliest first.  A call `fd_bind (p)` adds `p` with its owner at the end; a call
`fd_unref (p)` after which `p` is no longer a live object removes `p`; no other call
changes the record.  `w` is the heap before the call and `w1` the heap after it. -/
def bound_step (op : fd_op) (w w1 : world) (log : List (inode_ptr × fd_ptr)) :
    List (inode_ptr × fd_ptr) :=
  match op with
  | fd_op.bind p =>
    match (w.fd p).bind (fun f => f.inode) with
    | some i => log ++ [(i, p)]
    | none => log
  | fd_op.unref (some p) =>
    if (w1.fd p).isSome then log else log.filter (fun e => e.2 ≠ p)
  | _ => log

/-- The heap and the record of the bindings after a sequence of calls. -/
def run_fd_ops : List fd_op → world → List (inode_ptr × fd_ptr) →
    Option (world × List (inode_ptr × fd_ptr))
  | [], w, log => some (w, log)
  | op :: ops, w, log =>
    match fd_step op w with
    | none => none
    | some w1 => run_fd_ops ops w1 (bound_step op w w1 log)

/-- The handles of the record that are bound to the owner `i`, the earliest bound
first. -/
def bound_order (log : List (inode_ptr × fd_ptr)) (i : inode_ptr) : List fd_ptr :=
  (log.filter (fun e => e.1 = i)).map (fun e => e.2)

/-! ## The calls of callbacks with the heap in which they are made -/

/-- The callbacks the notification loop of `fd_destroy` invokes for the entries `keys`,
each paired with the heap in which it is invoked; `w` is the heap at the head of the
loop, and the event of each step is added to the trace after the step. -/
def notify_calls (is_dir : Bool) (xl : List xlator_t) (p : fd_ptr) :
    List String → world → List (event × world)
  | [], _ => []
  | key :: keys, w =>
    (if is_callback (destroy_notify is_dir xl p key) then
        [(destroy_notify is_dir xl p key, w)] else [])
      ++ notify_calls is_dir xl p keys
          { w with trace := w.trace ++ [destroy_notify is_dir xl p key] }

/-- The callbacks `fd_destroy (p)` invokes, each with the heap in which it is invoked:
the loop runs on the heap in which `fd_destroy` starts, before the owner reference is
released and the object freed. -/
def fd_destroy_calls (p : fd_ptr) (w : world) : List (event × world) :=
  match w.fd p with
  | none => []
  | some f =>
    match f.inode with
    | none => []
    | some i =>
      match w.inode i with
      | none => []
      | some ino =>
        notify_calls ino.is_dir ino.xl p f.ctx
          { w with trace := w.trace ++ [event.destroy_enter p] }

/-- The callbacks one call `fd_unref (fd)` invokes, each with the heap in which it is
invoked: `_fd_unref` runs first, under the owner's lock, and `fd_destroy` is called
afterwards on the heap `_fd_unref` left, when the count read under the lock is `0`. -/
def fd_unref_calls (fd : Option fd_ptr) (w : world) : List (event × world) :=
  match fd with
  | none => []
  | some p =>
    match _fd_unref p w with
    | none => []
    | some w1 =>
      match w1.fd p with
      | some f1 => if f1.refcount = 0 then fd_destroy_calls p w1 else []
      | none => []

/-! ## Maps of objects -/

theorem store_same {α : Type} (m : Nat → Option α) (p : Nat) (v : Option α) :
    store m p v p = v := by
  simp [store]

theorem store_other {α : Type} (m : Nat → Option α) (p q : Nat) (v : Option α) (h : q ≠ p) :
    store m p v q = m q := by
  simp [store, h]

theorem store_store {α : Type} (m : Nat → Option α) (p : Nat) (a b : Option α) :
    store (store m p a) p b = store m p b := by
  funext q
  by_cases h : q = p <;> simp [store, h]

theorem store_self {α : Type} (m : Nat → Option α) (p : Nat) (v : Option α) (h : m p = v) :
    store m p v = m := by
  funext q
  by_cases hq : q = p
  · subst hq; simp [store, h]
  · simp [store, hq]

/-! ## Reference counting on a live object -/

/-- On a live object with a live owner `fd_ref` adds one to the count and changes nothing
else. -/
theorem fd_ref_live (w : world) (p : fd_ptr) (f : fd_t) (i : inode_ptr) (ino : inode_t)
    (hf : w.fd p = some f) (hi : f.inode = some i) (hino : w.inode i = some ino) :
    fd_ref (some p) w
      = some (some p, { w with fd := store w.fd p (some { f with refcount := f.refcount + 1 }) }) := by
  simp [fd_ref, hf, hi, hino, _fd_ref]

/-- On a live object whose count is above one `fd_unref` takes one off the count and
changes nothing else. -/
theorem fd_unref_live (w : world) (p : fd_ptr) (f : fd_t) (i : inode_ptr) (ino : inode_t)
    (hf : w.fd p = some f) (hi : f.inode = some i) (hino : w.inode i = some ino)
    (hr : 1 < f.refcount) :
    fd_unref (some p) w
      = some { w with fd := store w.fd p (some { f with refcount := f.refcount - 1 }) } := by
  have h0 : f.refcount ≠ 0 := by omega
  have h1 : f.refcount - 1 ≠ 0 := by omega
  simp [fd_unref, hf, hi, hino, h0, h1]

/-- On a live object whose count is one `fd_unref` unlinks it from the owner's list and
runs `fd_destroy`, which frees it. -/
theorem fd_unref_last (w : world) (p : fd_ptr) (f : fd_t) (i : inode_ptr) (ino : inode_t)
    (hf : w.fd p = some f) (hi : f.inode = some i) (hino : w.inode i = some ino)
    (hr : f.refcount = 1) :
    fd_unref (some p) w
      = some { fd := store w.fd p none,
               inode := store w.inode i (some (list_del_init p ino)),
               trace := w.trace ++ [event.destroy_enter p]
                          ++ f.ctx.map (destroy_notify ino.is_dir ino.xl p)
                          ++ [event.inode_unref i, event.dict_destroy p, event.free p] } := by
  simp [fd_unref, hf, hi, hino, hr, fd_destroy, store_same, store_store, list_del_init]

/-! ## Table operations that do not grow the table -/

/-- When the loop condition `max_fds < fd` is false at entry the growth loop returns at
once with the table untouched. -/
theorem unused_get2_grow_in_range (fuel : Nat) (t : fdtable_t) (fd : Nat)
    (h : ¬ t.max_fds < fd) : unused_get2_grow (fuel + 1) t fd = some t := by
  simp [unused_get2_grow, h]

/-- C4: `gf_fd_unused_get2` on an in-range index whose slot holds an object returns `-1`
and leaves the whole table (so slot `i`, every other slot and the capacity) and the whole
heap (so every reference count) exactly as they were. -/
theorem gf_fd_unused_get2_occupied (t : fdtable_t) (i : Int) (o p : fd_ptr) (w : world)
    (h0 : 0 ≤ i) (hi : i.toNat < t.max_fds) (ho : t.fds i.toNat = some o) :
    gf_fd_unused_get2 (some t) (some p) i w = some (-1, some t, w) := by
  have hneg : ¬ i < 0 := by omega
  have hle : ¬ t.max_fds < i.toNat := by omega
  simp [gf_fd_unused_get2, hneg, unused_get2_grow_in_range _ _ _ hle, hi, ho]

/-- C7: `gf_fd_put` on an in-range index empties slot `i`, keeps every other slot and the
capacity, and the heap afterwards is the heap after one `fd_unref` of the previous
occupant: a live occupant loses exactly one reference (and is freed when that was its
last), an empty slot changes no count; a negative index, an index at or beyond the
capacity, or an absent table leave table and heap unchanged. -/
theorem gf_fd_put_spec (t : fdtable_t) (i : Int) (w : world) :
    (0 ≤ i → i.toNat < t.max_fds →
      ∃ t1 : fdtable_t, t1.max_fds = t.max_fds ∧ t1.fds i.toNat = none ∧
        (∀ j, j ≠ i.toNat → t1.fds j = t.fds j) ∧
        gf_fd_put (some t) i w = (fd_unref (t.fds i.toNat) w).map (fun w1 => (some t1, w1)) ∧
        (t.fds i.toNat = none → gf_fd_put (some t) i w = some (some t1, w)) ∧
        (∀ o f n ino, t.fds i.toNat = some o → w.fd o = some f → f.inode = some n →
          w.inode n = some ino → 0 < f.refcount →
          ∃ w1, gf_fd_put (some t) i w = some (some t1, w1) ∧
            (∀ q, q ≠ o → w1.fd q = w.fd q) ∧
            w1.fd o = if f.refcount = 1 then none
                      else some { f with refcount := f.refcount - 1 })) ∧
    ((i < 0 ∨ t.max_fds ≤ i.toNat) → gf_fd_put (some t) i w = some (some t, w)) ∧
    gf_fd_put none i w = some (none, w) := by
  refine ⟨?_, ?_, ?_⟩
  · intro h0 hi
    have hneg : ¬ i < 0 := by omega
    refine ⟨{ t with fds := store t.fds i.toNat none }, rfl, store_same _ _ _,
      fun j hj => store_other _ _ _ _ hj, ?_, ?_, ?_⟩
    · simp [gf_fd_put, hneg, hi]
    · intro he
      simp [gf_fd_put, hneg, hi, he, fd_unref]
    · intro o f n ino ho hf hn hino hr
      have key : ∃ w1, fd_unref (some o) w = some w1 ∧ (∀ q, q ≠ o → w1.fd q = w.fd q) ∧
          w1.fd o = if f.refcount = 1 then none
                    else some { f with refcount := f.refcount - 1 } := by
        by_cases h1 : f.refcount = 1
        · exact ⟨_, fd_unref_last w o f n ino hf hn hino h1,
            fun q hq => by simp [store_other _ _ _ _ hq], by simp [store_same, h1]⟩
        · exact ⟨_, fd_unref_live w o f n ino hf hn hino (by omega),
            fun q hq => by simp [store_other _ _ _ _ hq], by simp [store_same, h1]⟩
      obtain ⟨w1, hw1, ha, hb⟩ := key
      exact ⟨w1, by simp [gf_fd_put, hneg, hi, ho, hw1], ha, hb⟩
  · intro h
    rcases h with h | h
    · simp [gf_fd_put, h]
    · have hneg : ¬ i.toNat < t.max_fds := by omega
      by_cases hi : i < 0 <;> simp [gf_fd_put, hi, hneg]
  · rfl

/-- C8: `gf_fd_fdptr_get` on an in-range index whose slot holds a live object returns that
object and adds exactly one to its count; on an empty slot, a negative index, an index at
or beyond the capacity, or an absent table it returns the null pointer and leaves the heap
unchanged; the table it leaves is in every case the table it was given. -/
theorem gf_fd_fdptr_get_spec (t : fdtable_t) (i : Int) (w : world) :
    (∀ o f n ino, 0 ≤ i → i.toNat < t.max_fds → t.fds i.toNat = some o →
        w.fd o = some f → f.inode = some n → w.inode n = some ino →
        gf_fd_fdptr_get (some t) i w
          = some (some o, some t,
              { w with fd := store w.fd o (some { f with refcount := f.refcount + 1 }) })) ∧
    ((i < 0 ∨ t.max_fds ≤ i.toNat ∨ t.fds i.toNat = none) →
        gf_fd_fdptr_get (some t) i w = some (none, some t, w)) ∧
    gf_fd_fdptr_get none i w = some (none, none, w) ∧
    (∀ r t1 w1, gf_fd_fdptr_get (some t) i w = some (r, t1, w1) → t1 = some t) := by
  refine ⟨?_, ?_, rfl, ?_⟩
  · intro o f n ino h0 hi ho hf hn hino
    have hneg : ¬ i < 0 := by omega
    simp only [gf_fd_fdptr_get, hneg, hi, ho, fd_ref_live w o f n ino hf hn hino]
    simp
  · intro h
    by_cases hneg : i < 0
    · simp [gf_fd_fdptr_get, hneg]
    · by_cases hi : i.toNat < t.max_fds
      · have he : t.fds i.toNat = none := by
          rcases h with h | h | h
          · exact absurd h hneg
          · omega
          · exact h
        simp [gf_fd_fdptr_get, hneg, hi, he, fd_ref]
      · simp [gf_fd_fdptr_get, hneg, hi]
  · intro r t1 w1 h
    by_cases hneg : i < 0
    · simp [gf_fd_fdptr_get, hneg] at h
      exact h.2.1.symm
    · by_cases hi : i.toNat < t.max_fds
      · cases hfr : fd_ref (t.fds i.toNat) w with
        | none => simp [gf_fd_fdptr_get, hneg, hi, hfr] at h
        | some x =>
          simp [gf_fd_fdptr_get, hneg, hi, hfr] at h
          exact h.2.1.symm
      · simp [gf_fd_fdptr_get, hneg, hi] at h
        exact h.2.1.symm
/-! ## Sequences of `fd_ref` and `fd_unref` -/

/-- Writing back the record an address already holds changes nothing. -/
theorem world_store_self (w : world) (p : fd_ptr) (f : fd_t) (hf : w.fd p = some f) :
    ({ w with fd := store w.fd p (some f) } : world) = w := by
  rw [store_self w.fd p (some f) hf]

/-- As long as the count stays above zero, `k` calls of `fd_unref` only lower the count
by `k`. -/
theorem fd_unref_times_live (k : Nat) (w : world) (p : fd_ptr) (f : fd_t) (i : inode_ptr)
    (ino : inode_t) (hf : w.fd p = some f) (hi : f.inode = some i)
    (hino : w.inode i = some ino) (hk : k < f.refcount) :
    fd_unref_times k (some p) w
      = some { w with fd := store w.fd p (some { f with refcount := f.refcount - k }) } := by
  induction k generalizing w f with
  | zero =>
    simp only [fd_unref_times, Nat.sub_zero]
    rw [world_store_self w p f hf]
  | succ k ih =>
    simp only [fd_unref_times]
    rw [fd_unref_live w p f i ino hf hi hino (by omega)]
    simp only [Option.some_bind]
    rw [ih { w with fd := store w.fd p (some { f with refcount := f.refcount - 1 }) }
      { f with refcount := f.refcount - 1 } (store_same _ _ _) hi hino
      (by simp only; omega)]
    simp only [store_store, Nat.sub_sub, Nat.add_comm 1 k]

/-- The last of `k + 1` calls of `fd_unref` acts on the heap the first `k` calls leave. -/
theorem fd_unref_times_succ (k : Nat) (fd : Option fd_ptr) (w : world) :
    fd_unref_times (k + 1) fd w = (fd_unref_times k fd w).bind (fd_unref fd) := by
  induction k generalizing w with
  | zero =>
    cases h : fd_unref fd w <;> simp [fd_unref_times, h]
  | succ k ih =>
    show (fd_unref fd w).bind (fd_unref_times (k + 1) fd) = _
    cases h : fd_unref fd w with
    | none => simp [fd_unref_times, h]
    | some w1 =>
      simp only [fd_unref_times, h, Option.some_bind]
      exact ih w1

/-- C9: for a live handle object with count `n ≥ 1`, the first `k < n` calls of `fd_unref`
run no `fd_destroy` (the trace and the owner's list are untouched, the count is `n - k`),
and the `n`-th call runs `fd_destroy` exactly once, after which the object is freed and
the owner's open-handle list does not contain it. -/
theorem fd_unref_destroys_at_last (w : world) (p : fd_ptr) (f : fd_t) (i : inode_ptr)
    (ino : inode_t) (n : Nat) (hf : w.fd p = some f) (hi : f.inode = some i)
    (hino : w.inode i = some ino) (hn : f.refcount = n) (h1 : 1 ≤ n) :
    (∀ k, k < n → ∃ wk, fd_unref_times k (some p) w = some wk ∧ wk.trace = w.trace ∧
        wk.inode = w.inode ∧ wk.fd p = some { f with refcount := n - k }) ∧
    (∃ wn ino1 rest, fd_unref_times n (some p) w = some wn ∧
        wn.trace = w.trace ++ event.destroy_enter p :: rest ∧
        event.destroy_enter p ∉ rest ∧ wn.fd p = none ∧
        wn.inode i = some ino1 ∧ p ∉ ino1.fd_list) := by
  constructor
  · intro k hk
    refine ⟨_, fd_unref_times_live k w p f i ino hf hi hino (by omega), rfl, rfl, ?_⟩
    simp [store_same, hn]
  · obtain ⟨m, rfl⟩ : ∃ m, n = m + 1 := ⟨n - 1, by omega⟩
    rw [fd_unref_times_succ, fd_unref_times_live m w p f i ino hf hi hino (by omega)]
    simp only [Option.some_bind]
    rw [fd_unref_last { w with fd := store w.fd p (some { f with refcount := f.refcount - m }) }
      p { f with refcount := f.refcount - m } i ino (store_same _ _ _) hi
      hino (by simp only; omega)]
    refine ⟨_, list_del_init p ino,
      f.ctx.map (destroy_notify ino.is_dir ino.xl p)
        ++ [event.inode_unref i, event.dict_destroy p, event.free p], rfl, ?_, ?_, ?_, ?_, ?_⟩
    · simp
    · intro hmem
      rcases List.mem_append.mp hmem with h | h
      · obtain ⟨key, _, hkey⟩ := List.mem_map.mp h
        unfold destroy_notify at hkey
        split at hkey
        · cases hkey
        · split at hkey <;> split at hkey <;> cases hkey
      · simp at h
    · simp [store_same]
    · simp [store_same]
    · simp [list_del_init]

/-- A sequence of `fd_ref` / `fd_unref` calls in which the count never reaches zero only
moves the count by the number of `fd_ref` calls less the number of `fd_unref` calls. -/
theorem run_ref_ops_live (p : fd_ptr) (i : inode_ptr) (ino : inode_t) (ops : List ref_op) :
    ∀ (w : world) (f : fd_t), w.fd p = some f → f.inode = some i → w.inode i = some ino →
      (∀ k, (ops.take k).count ref_op.unref < (ops.take k).count ref_op.ref + f.refcount) →
      run_ref_ops p ops w
        = some { w with fd := store w.fd p (some { f with
            refcount := f.refcount + ops.count ref_op.ref - ops.count ref_op.unref }) } := by
  induction ops with
  | nil =>
    intro w f hf _ _ _
    simp only [run_ref_ops, List.count_nil, Nat.add_zero, Nat.sub_zero]
    rw [world_store_self w p f hf]
  | cons op l ih =>
    intro w f hf hi hino hpre
    cases op with
    | ref =>
      simp only [run_ref_ops]
      rw [fd_ref_live w p f i ino hf hi hino]
      simp only [Option.some_bind]
      rw [ih { w with fd := store w.fd p (some { f with refcount := f.refcount + 1 }) }
        { f with refcount := f.refcount + 1 } (store_same _ _ _) hi hino ?_]
      · simp only [store_store]
        have e : f.refcount + 1 + List.count ref_op.ref l - List.count ref_op.unref l
            = f.refcount + List.count ref_op.ref (ref_op.ref :: l)
                - List.count ref_op.unref (ref_op.ref :: l) := by
          simp [List.count_cons]
          omega
        rw [e]
      · intro k
        have h := hpre (k + 1)
        simp [List.take_succ_cons, List.count_cons] at h
        simp only
        omega
    | unref =>
      have h1 : 1 < f.refcount := by
        have h := hpre 1
        simp [List.count_cons] at h
        omega
      simp only [run_ref_ops]
      rw [fd_unref_live w p f i ino hf hi hino h1]
      simp only [Option.some_bind]
      rw [ih { w with fd := store w.fd p (some { f with refcount := f.refcount - 1 }) }
        { f with refcount := f.refcount - 1 } (store_same _ _ _) hi hino ?_]
      · simp only [store_store]
        have e : f.refcount - 1 + List.count ref_op.ref l - List.count ref_op.unref l
            = f.refcount + List.count ref_op.ref (ref_op.unref :: l)
                - List.count ref_op.unref (ref_op.unref :: l) := by
          simp [List.count_cons]
          omega
        rw [e]
      · intro k
        have h := hpre (k + 1)
        simp [List.take_succ_cons, List.count_cons] at h
        simp only
        omega

/-- C10: for a live handle object with count at least one, any sequence of `N` calls of
`fd_ref` and `N` calls of `fd_unref` in which every `fd_unref` is preceded by its `fd_ref`
leaves the heap exactly as it was: the count is the same, nothing was destroyed (the
object is live and the trace has no new event) and the owner's list is the same. -/
theorem fd_ref_unref_balanced (w : world) (p : fd_ptr) (f : fd_t) (i : inode_ptr)
    (ino : inode_t) (ops : List ref_op) (N : Nat)
    (hf : w.fd p = some f) (hi : f.inode = some i) (hino : w.inode i = some ino)
    (hr : 1 ≤ f.refcount)
    (hN : ops.count ref_op.ref = N) (hU : ops.count ref_op.unref = N)
    (hpre : ∀ k, k ≤ ops.length →
      (ops.take k).count ref_op.unref ≤ (ops.take k).count ref_op.ref) :
    run_ref_ops p ops w = some w := by
  have hall : ∀ k, (ops.take k).count ref_op.unref ≤ (ops.take k).count ref_op.ref := by
    intro k
    by_cases hk : k ≤ ops.length
    · exact hpre k hk
    · have h := hpre ops.length (Nat.le_refl _)
      rw [List.take_of_length_le (by omega)]
      rwa [List.take_of_length_le (Nat.le_refl _)] at h
  rw [run_ref_ops_live p i ino ops w f hf hi hino (fun k => by have := hall k; omega)]
  rw [hN, hU, Nat.add_sub_cancel]
  rw [world_store_self w p f hf]
/-! ## The calls on example states -/

/-- Witness of C4: a second object offered for the occupied slot `0` of `table_small`. -/
theorem gf_fd_unused_get2_occupied_witness :
    (0 : Int) ≤ 0 ∧ (0 : Int).toNat < table_small.max_fds ∧
      table_small.fds (0 : Int).toNat = some 1 ∧
      gf_fd_unused_get2 (some table_small) (some 2) 0 world_bound
        = some (-1, some table_small, world_bound) :=
  ⟨by decide, by decide, rfl,
    gf_fd_unused_get2_occupied table_small 0 1 2 world_bound (by decide) (by decide) rfl⟩

/-- Witness of C7: releasing slot `0` of `table_small`, whose occupant has count one. -/
theorem gf_fd_put_spec_witness :
    ∃ t1 w1, gf_fd_put (some table_small) 0 world_bound = some (some t1, w1) ∧
      t1.max_fds = 128 ∧ t1.fds 0 = none ∧ t1.fds 1 = table_small.fds 1 ∧
      w1.fd 1 = none := by
  obtain ⟨t1, hcap, hnone, hoth, _, _, hlive⟩ :=
    (gf_fd_put_spec table_small 0 world_bound).1 (by decide) (by decide)
  obtain ⟨w1, h, _, hfd⟩ :=
    hlive 1 ⟨7, some 0, 1, []⟩ 0 ⟨false, [1], []⟩ rfl rfl rfl rfl (by decide)
  exact ⟨t1, w1, h, hcap, hnone, hoth 1 (by decide), by simpa using hfd⟩

/-- Witness of C8: looking up slot `0` of `table_small`; the count goes from one to two. -/
theorem gf_fd_fdptr_get_spec_witness :
    gf_fd_fdptr_get (some table_small) 0 world_bound
      = some (some 1, some table_small,
          { world_bound with fd := store world_bound.fd 1 (some ⟨7, some 0, 2, []⟩) }) :=
  (gf_fd_fdptr_get_spec table_small 0 world_bound).1 1 ⟨7, some 0, 1, []⟩ 0
    ⟨false, [1], []⟩ (by decide) (by decide) rfl rfl rfl rfl

/-- Witness of C9: create, bind, ref twice, then unref: two calls leave the object alive
with an unchanged trace, the third runs `fd_destroy` once and empties the owner's list. -/
theorem fd_unref_destroys_at_last_witness :
    (∃ w2, fd_unref_times 2 (some 1) world_ref3 = some w2 ∧ w2.trace = world_ref3.trace ∧
        w2.inode = world_ref3.inode ∧ w2.fd 1 = some ⟨7, some 0, 1, []⟩) ∧
    (∃ w3 ino1 rest, fd_unref_times 3 (some 1) world_ref3 = some w3 ∧
        w3.trace = world_ref3.trace ++ event.destroy_enter 1 :: rest ∧
        event.destroy_enter 1 ∉ rest ∧ w3.fd 1 = none ∧
        w3.inode 0 = some ino1 ∧ 1 ∉ ino1.fd_list) :=
  have h := fd_unref_destroys_at_last world_ref3 1 ⟨7, some 0, 3, []⟩ 0 ⟨false, [1], []⟩ 3
    rfl rfl rfl rfl (by decide)
  ⟨h.1 2 (by decide), h.2⟩

/-- Witness of C10: three nested ref / unref pairs on the bound object of count one. -/
theorem fd_ref_unref_balanced_witness :
    run_ref_ops 1
      [ref_op.ref, ref_op.ref, ref_op.unref, ref_op.ref, ref_op.unref, ref_op.unref]
      world_bound = some world_bound :=
  fd_ref_unref_balanced world_bound 1 ⟨7, some 0, 1, []⟩ 0 ⟨false, [1], []⟩
    [ref_op.ref, ref_op.ref, ref_op.unref, ref_op.ref, ref_op.unref, ref_op.unref] 3
    rfl rfl rfl (by decide) (by decide) (by decide) (by decide)

/-- When every slot is occupied the scan of `gf_fd_unused_get` visits all `n` slots. -/
theorem unused_get_scan_full (fds : Nat → Option fd_ptr) (h : ∀ j, fds j ≠ none) (n i : Nat) :
    unused_get_scan fds n i = i + n := by
  induction n generalizing i with
  | zero => rfl
  | succ n ih =>
    simp only [unused_get_scan, h i, if_false, ih (i + 1)]
    omega

/-- C1: on a fresh table and a just created and bound object (count one) at address `1`,
the calls allocate, allocate, release (0) return the indices `0` and `1`; slot `1` was
never released and still holds the object, but the release of index `0` dropped the
object's only reference, so the object is freed and `gf_fd_fdptr_get` of index `1` does
not return the object: it has no defined result. -/
theorem run_table_ops_release_frees_shared_object :
    (run_table_ops [table_op.allocate 1, table_op.allocate 1, table_op.release 0]
        gf_fd_fdtable_alloc world_bound).map
        (fun r => (r.1, r.2.1.bind (fun t => t.fds 1), (r.2.2.fd 1).isSome))
      = some ([0, 1], some 1, false) ∧
    ((run_table_ops [table_op.allocate 1, table_op.allocate 1, table_op.release 0]
        gf_fd_fdtable_alloc world_bound).bind
        (fun r => gf_fd_fdptr_get r.2.1 1 r.2.2)).isSome = false := by
  constructor <;> decide

/-- C2: on a table of `2 ^ 29` slots that are all occupied `gf_fd_unused_get` returns the
old capacity `2 ^ 29`, grows the table to `2 ^ 30` slots and installs the object there,
but slot `0`, occupied before the call, is empty afterwards: the byte count of the copy
was truncated to `0`. -/
theorem gf_fd_unused_get_growth_loses_slots :
    table_full.fds 0 = some 1 ∧
    (gf_fd_unused_get (some table_full) (some 2)).map
        (fun r => (r.1, r.2.map (fun t => t.max_fds), r.2.bind (fun t => t.fds 536870912),
          r.2.bind (fun t => t.fds 0)))
      = some (536870912, some 1073741824, some 2, none) := by
  have hs : unused_get_scan table_full.fds table_full.max_fds 0 = 536870912 := by
    rw [unused_get_scan_full _ (fun j => by simp [table_full])]
    rfl
  refine ⟨rfl, ?_⟩
  unfold gf_fd_unused_get
  simp only [hs]
  decide

/-- C3: on a fresh table (capacity `128`) the growth loop of `gf_fd_unused_get2` does not
grow the table for the index `128`, so the index is not below the capacity and the call
reads outside the slot array; for the index `256` the loop stops at capacity `256`;
for the index `5000` it stops at capacity `8192`. -/
theorem gf_fd_unused_get2_no_growth_at_capacity :
    gf_fd_fdtable_alloc.map (fun t => t.max_fds) = some 128 ∧
    (gf_fd_fdtable_alloc.bind (fun t => unused_get2_grow 129 t 128)).map (fun t => t.max_fds)
      = some 128 ∧
    (gf_fd_unused_get2 gf_fd_fdtable_alloc (some 1) 128 world_bound).isSome = false ∧
    (gf_fd_fdtable_alloc.bind (fun t => unused_get2_grow 257 t 256)).map (fun t => t.max_fds)
      = some 256 ∧
    (gf_fd_unused_get2 gf_fd_fdtable_alloc (some 1) 256 world_bound).isSome = false ∧
    (gf_fd_fdtable_alloc.bind (fun t => unused_get2_grow 5001 t 5000)).map
      (fun t => t.max_fds) = some 8192 := by
  refine ⟨?_, ?_, ?_, ?_, ?_, ?_⟩ <;> decide

/-- C5: on the table left by one allocation on a fresh table (slot `0` occupied),
`gf_fd_unused_get2` at the free index `536870913` returns that index, installs the object
and adds one to its count, but slot `0` is empty afterwards: the growth from `2 ^ 29` to
`2 ^ 30` slots copied `0` bytes. -/
theorem gf_fd_unused_get2_growth_loses_slots :
    table_one.bind (fun t => t.fds 0) = some 1 ∧
    (world_bound.fd 1).map (fun f => f.refcount) = some 1 ∧
    (gf_fd_unused_get2 table_one (some 1) 536870913 world_bound).map
        (fun r => (r.1, r.2.1.map (fun t => t.max_fds),
          r.2.1.bind (fun t => t.fds 536870913), r.2.1.bind (fun t => t.fds 0),
          (r.2.2.fd 1).map (fun f => f.refcount)))
      = some (536870913, some 1073741824, some 1, none, some 2) := by
  refine ⟨?_, ?_, ?_⟩ <;> decide

/-- C6: `gf_fd_unused_get` installs the object at address `1` (count one) in slot `0` of
a fresh table and has no access to the heap, so the count stays one; the `gf_fd_put` of
that index then frees the object.  After `gf_fd_unused_get2` instead of
`gf_fd_unused_get` the count is two and the same `gf_fd_put` leaves it at one. -/
theorem gf_fd_unused_get_takes_no_reference :
    (world_bound.fd 1).map (fun f => f.refcount) = some 1 ∧
    (gf_fd_unused_get gf_fd_fdtable_alloc (some 1)).map
        (fun r => (r.1, r.2.bind (fun t => t.fds 0))) = some (0, some 1) ∧
    ((gf_fd_unused_get gf_fd_fdtable_alloc (some 1)).bind
        (fun r => gf_fd_put r.2 0 world_bound)).map (fun s => (s.2.fd 1).isSome)
      = some false ∧
    (gf_fd_unused_get2 gf_fd_fdtable_alloc (some 1) 0 world_bound).map
        (fun r => (r.1, (r.2.2.fd 1).map (fun f => f.refcount))) = some (0, some 2) ∧
    ((gf_fd_unused_get2 gf_fd_fdtable_alloc (some 1) 0 world_bound).bind
        (fun r => gf_fd_put r.2.1 0 r.2.2)).map
        (fun s => (s.2.fd 1).map (fun f => f.refcount)) = some (some 1) := by
  refine ⟨?_, ?_, ?_, ?_, ?_⟩ <;> decide
/-! ## Rounding up to a power of two -/

/-- The halving loop started on `tmp` with `1 ≤ tmp < 2 ^ fuel` stops at `tmp = 1` before
the fuel is used up: the count grows by the `d` with `2 ^ d ≤ tmp < 2 ^ (d + 1)`, and the
flag is raised exactly when `tmp` is not `2 ^ d`. -/
theorem roundup_loop_spec (fuel : Nat) :
    ∀ (tmp cnt : Nat) (r : Bool), 1 ≤ tmp → tmp < 2 ^ fuel →
      ∃ d, (roundup_loop fuel tmp cnt r).1 = cnt + d ∧ 2 ^ d ≤ tmp ∧ tmp < 2 ^ (d + 1) ∧
        ((roundup_loop fuel tmp cnt r).2 = true ↔ (r = true ∨ tmp ≠ 2 ^ d)) := by
  induction fuel with
  | zero =>
    intro tmp cnt r h1 h2
    simp at h2
    omega
  | succ fuel ih =>
    intro tmp cnt r h1 h2
    by_cases ht : tmp = 1
    · subst ht
      exact ⟨0, by simp [roundup_loop], by simp, by simp, by simp [roundup_loop]⟩
    · have hhalf : 1 ≤ tmp / 2 := by omega
      have hlt : tmp / 2 < 2 ^ fuel := by
        rw [Nat.pow_succ] at h2
        omega
      obtain ⟨d, hd1, hd2, hd3, hd4⟩ :=
        ih (tmp / 2) (cnt + 1) (if tmp % 2 ≠ 0 then true else r) hhalf hlt
      refine ⟨d + 1, ?_, ?_, ?_, ?_⟩
      · simp only [roundup_loop, ht, ne_eq, not_false_eq_true, if_true]
        rw [hd1]
        omega
      · rw [Nat.pow_succ]
        omega
      · rw [Nat.pow_succ] at hd3
        rw [Nat.pow_succ, Nat.pow_succ]
        omega
      · simp only [roundup_loop, ht, ne_eq, not_false_eq_true, if_true]
        rw [hd4, Nat.pow_succ]
        by_cases hodd : tmp % 2 = 0
        · simp only [hodd, ne_eq, not_true_eq_false, if_false]
          constructor
          · rintro (h | h)
            · exact Or.inl h
            · exact Or.inr (by omega)
          · rintro (h | h)
            · exact Or.inl h
            · exact Or.inr (by omega)
        · simp only [hodd, ne_eq, not_false_eq_true, if_true, true_or, true_iff]
          exact Or.inr (by omega)

/-- For `nr ≤ 2 ^ 31` the function `gf_roundup_power_of_two` returns the least power of
two that is at least `nr` (and `1` for `0`). -/
theorem gf_roundup_power_of_two_spec (nr : Nat) (h : nr ≤ 2 ^ 31) :
    ∃ e, gf_roundup_power_of_two nr = 2 ^ e ∧ nr ≤ 2 ^ e ∧ e ≤ 31 ∧
      (1 < nr → 2 ^ e < 2 * nr) ∧ (nr ≤ 1 → e = 0) := by
  by_cases h01 : nr = 0 ∨ nr = 1
  · refine ⟨0, by simp [gf_roundup_power_of_two, h01], ?_, by omega, ?_, fun _ => rfl⟩
    · rcases h01 with h0 | h0 <;> simp [h0]
    · intro h1
      omega
  · have h2 : 1 ≤ nr := by omega
    have h32 : nr < 2 ^ 32 := by
      have : (2 : Nat) ^ 31 < 2 ^ 32 := by norm_num
      omega
    obtain ⟨d, hd1, hd2, hd3, hd4⟩ := roundup_loop_spec 32 nr 0 false h2 h32
    have hd31 : d ≤ 31 := by
      by_contra hcon
      have : (2 : Nat) ^ 32 ≤ 2 ^ d := Nat.pow_le_pow_right (by norm_num) (by omega)
      omega
    by_cases hp : nr = 2 ^ d
    · refine ⟨d, ?_, by omega, hd31, fun _ => by omega, fun h1 => by omega⟩
      have hflag : (roundup_loop 32 nr 0 false).2 = false := by
        cases hb : (roundup_loop 32 nr 0 false).2
        · rfl
        · exact absurd (hd4.mp hb) (by simp [hp.symm])
      simp only [gf_roundup_power_of_two, h01, if_false, hflag]
      simpa using hp
    · have hflag : (roundup_loop 32 nr 0 false).2 = true := hd4.mpr (Or.inr hp)
      have hd30 : d + 1 ≤ 31 := by
        by_contra hcon
        have hd : d = 31 := by omega
        subst hd
        omega
      have hlt : (2 : Nat) ^ (d + 1) < 2 ^ 32 :=
        Nat.pow_lt_pow_right (by norm_num) (by omega)
      refine ⟨d + 1, ?_, by omega, hd30, fun _ => ?_, fun h1 => by omega⟩
      · simp only [gf_roundup_power_of_two, h01, if_false, hflag, if_true, hd1, Nat.zero_add,
          UINT32_MOD]
        exact Nat.mod_eq_of_lt hlt
      · rw [Nat.pow_succ]
        omega
/-! ## Growth of a table below `2 ^ 29` slots -/

/-- For a table of fewer than `2 ^ 29` slots and a request `nr < 2 ^ 31` that is at least
the capacity, `gf_fd_fdtable_expand` gives a table of `fd_block * 2 ^ e > nr` slots that
keeps every old slot and whose other slots are empty. -/
theorem gf_fd_fdtable_expand_spec (t : fdtable_t) (nr : Nat) (hc : t.max_fds < 2 ^ 29)
    (hn : nr < 2 ^ 31) (hle : t.max_fds ≤ nr) :
    ∃ e, gf_fd_fdtable_expand t nr
        = some { max_fds := fd_block * 2 ^ e,
                 fds := fun j => if j < t.max_fds then t.fds j else none } ∧
      nr < fd_block * 2 ^ e ∧ e ≤ 24 ∧ (fd_block ≤ nr → fd_block * 2 ^ e ≤ 2 * nr) ∧
      (nr < fd_block → e = 0) := by
  have hb : fd_block = 128 := by decide
  have hs : sizeof_fdptr = 8 := rfl
  have hq : nr / 128 + 1 ≤ 2 ^ 24 := by
    have : (2 : Nat) ^ 31 = 128 * 2 ^ 24 := by norm_num
    omega
  have hm : (nr / 128 + 1) % 2 ^ 32 = nr / 128 + 1 :=
    Nat.mod_eq_of_lt (by
      have : (2 : Nat) ^ 24 < 2 ^ 32 := by norm_num
      omega)
  obtain ⟨e, he1, he2, _, he4, he5⟩ :=
    gf_roundup_power_of_two_spec (nr / 128 + 1) (by
      have : (2 : Nat) ^ 24 ≤ 2 ^ 31 := by norm_num
      omega)
  have he24 : e ≤ 24 := by
    by_cases h1 : 1 < nr / 128 + 1
    · have h2 := he4 h1
      by_contra hcon
      have : (2 : Nat) ^ 25 ≤ 2 ^ e := Nat.pow_le_pow_right (by norm_num) (by omega)
      have h25 : (2 : Nat) ^ 25 = 2 * 2 ^ 24 := by norm_num
      omega
    · have := he5 (by omega)
      omega
  have hpow : (2 : Nat) ^ e ≤ 2 ^ 24 := Nat.pow_le_pow_right (by norm_num) he24
  have hnr3 : 2 ^ e * 128 % 2 ^ 32 = 128 * 2 ^ e := by
    rw [Nat.mul_comm]
    exact Nat.mod_eq_of_lt (by
      have : (2 : Nat) ^ 32 = 256 * 2 ^ 24 := by norm_num
      omega)
  have hcpy : t.max_fds * 8 % 2 ^ 32 = t.max_fds * 8 :=
    Nat.mod_eq_of_lt (by
      have : (2 : Nat) ^ 32 = 8 * 2 ^ 29 := by norm_num
      omega)
  have hgt : nr < 128 * 2 ^ e := by omega
  refine ⟨e, ?_, by rw [hb]; exact hgt, he24, ?_, fun hsmall => he5 (by rw [hb] at hsmall; omega)⟩
  · have hcond : t.max_fds * 8 ≤ 128 * 2 ^ e * 8 := by omega
    simp only [gf_fd_fdtable_expand, hb, hs, UINT32_MOD, hm, he1, hnr3, hcpy, hcond, if_true,
      Nat.mul_div_cancel _ (show 0 < 8 by norm_num)]
  · intro h128
    rw [hb] at h128 ⊢
    have h1 : 1 < nr / 128 + 1 := by omega
    have h2 := he4 h1
    have hne : e ≠ 0 := by
      intro h0
      subst h0
      simp at he2
      omega
    obtain ⟨e1, rfl⟩ : ∃ e1, e = e1 + 1 := ⟨e - 1, by omega⟩
    rw [Nat.pow_succ] at h2 ⊢
    omega

/-- The growth step of both allocation functions, `gf_fd_fdtable_expand (fdtable,
max_fds + 1)`, on a table of fewer than `2 ^ 29` slots: the capacity becomes strictly
larger, every old slot is kept and the new slots are empty. -/
theorem gf_fd_fdtable_expand_step (t : fdtable_t) (hc : t.max_fds < 2 ^ 29) :
    ∃ t1, gf_fd_fdtable_expand t ((t.max_fds + 1) % UINT32_MOD) = some t1 ∧
      t.max_fds < t1.max_fds ∧ t1.max_fds ≤ 2 ^ 31 ∧
      (fd_block ≤ t.max_fds + 1 → t1.max_fds ≤ 2 * (t.max_fds + 1)) ∧
      (t.max_fds + 1 < fd_block → t1.max_fds = fd_block) ∧
      (∀ j, j < t.max_fds → t1.fds j = t.fds j) ∧
      (∀ j, t.max_fds ≤ j → t1.fds j = none) := by
  have h29 : (2 : Nat) ^ 29 < 2 ^ 31 := by norm_num
  have hmod : (t.max_fds + 1) % UINT32_MOD = t.max_fds + 1 :=
    Nat.mod_eq_of_lt (by
      have : (2 : Nat) ^ 31 < 2 ^ 32 := by norm_num
      simp only [UINT32_MOD]
      omega)
  obtain ⟨e, he1, he2, he3, he4, he5⟩ :=
    gf_fd_fdtable_expand_spec t (t.max_fds + 1) hc (by omega) (by omega)
  have hb : fd_block = 128 := by decide
  rw [hmod, he1]
  refine ⟨_, rfl, by simp only; omega, ?_, he4, ?_, ?_, ?_⟩
  · have hpow : (2 : Nat) ^ e ≤ 2 ^ 24 := Nat.pow_le_pow_right (by norm_num) he3
    have : (2 : Nat) ^ 31 = 128 * 2 ^ 24 := by norm_num
    simp only [hb]
    omega
  · intro hsmall
    simp [he5 hsmall]
  · intro j hj
    simp [hj]
  · intro j hj
    have : ¬ j < t.max_fds := by omega
    simp [this]
/-! ## Allocation on a table below `2 ^ 29` slots -/

/-- The scan of `gf_fd_unused_get` stops at the first empty slot among the `n` slots from
`i` on, and at `i + n` when there is none. -/
theorem unused_get_scan_spec (fds : Nat → Option fd_ptr) (n : Nat) :
    ∀ i, i ≤ unused_get_scan fds n i ∧ unused_get_scan fds n i ≤ i + n ∧
      (∀ j, i ≤ j → j < unused_get_scan fds n i → fds j ≠ none) ∧
      (unused_get_scan fds n i < i + n → fds (unused_get_scan fds n i) = none) := by
  induction n with
  | zero =>
    intro i
    simp only [unused_get_scan]
    exact ⟨Nat.le_refl _, Nat.le_refl _, fun j h1 h2 => by omega, fun h => by omega⟩
  | succ n ih =>
    intro i
    by_cases he : fds i = none
    · have hs : unused_get_scan fds (n + 1) i = i := by simp [unused_get_scan, he]
      rw [hs]
      exact ⟨Nat.le_refl _, by omega, fun j h1 h2 => by omega, fun _ => he⟩
    · obtain ⟨h1, h2, h3, h4⟩ := ih (i + 1)
      have hs : unused_get_scan fds (n + 1) i = unused_get_scan fds n (i + 1) := by
        simp [unused_get_scan, he]
      rw [hs]
      refine ⟨by omega, by omega, ?_, fun h => h4 (by omega)⟩
      intro j hj1 hj2
      by_cases hji : j = i
      · subst hji
        exact he
      · exact h3 j (by omega) hj2

/-- On a table of fewer than `2 ^ 29` slots `gf_fd_unused_get` returns the lowest free
index `i`: every slot below `i` was occupied; either slot `i` was empty and the capacity
is kept, or every slot was occupied, `i` is the old capacity and the table has grown;
afterwards slot `i` holds the object and every other slot below the old capacity is
unchanged. -/
theorem gf_fd_unused_get_lowest_free (t : fdtable_t) (p : fd_ptr) (hc : t.max_fds < 2 ^ 29) :
    ∃ (i : Nat) (t1 : fdtable_t),
      gf_fd_unused_get (some t) (some p) = some ((i : Int), some t1) ∧
      (∀ j, j < i → t.fds j ≠ none) ∧
      ((i < t.max_fds ∧ t.fds i = none ∧ t1.max_fds = t.max_fds) ∨
        (i = t.max_fds ∧ t.max_fds < t1.max_fds)) ∧
      t1.fds i = some p ∧
      (∀ j, j < t.max_fds → j ≠ i → t1.fds j = t.fds j) := by
  obtain ⟨_, h2, h3, h4⟩ := unused_get_scan_spec t.fds t.max_fds 0
  have h31 : ¬ INT32_MAX < unused_get_scan t.fds t.max_fds 0 := by
    have : (2 : Nat) ^ 29 ≤ 2 ^ 31 - 1 := by norm_num
    simp only [INT32_MAX]
    omega
  by_cases hlt : unused_get_scan t.fds t.max_fds 0 < t.max_fds
  · refine ⟨unused_get_scan t.fds t.max_fds 0,
      { t with fds := store t.fds (unused_get_scan t.fds t.max_fds 0) (some p) }, ?_,
      fun j hj => h3 j (by omega) hj,
      Or.inl ⟨hlt, h4 (by omega), rfl⟩, store_same _ _ _,
      fun j _ hj => store_other _ _ _ _ hj⟩
    simp only [gf_fd_unused_get, h31, hlt, if_true, if_false]
  · have heq : unused_get_scan t.fds t.max_fds 0 = t.max_fds := by omega
    obtain ⟨t1, hx1, hx2, _, _, _, hx6, _⟩ := gf_fd_fdtable_expand_step t hc
    refine ⟨t.max_fds, { t1 with fds := store t1.fds t.max_fds (some p) }, ?_,
      fun j hj => h3 j (by omega) (by omega), Or.inr ⟨rfl, hx2⟩, store_same _ _ _, ?_⟩
    · have hn : ¬ t.max_fds < t.max_fds := by omega
      have h31b : ¬ INT32_MAX < t.max_fds := by rwa [heq] at h31
      simp only [gf_fd_unused_get, heq, h31b, hn, if_false, hx1, hx2, if_true]
    · intro j hj hne
      simp only [store_other _ _ _ _ hne]
      exact hx6 j hj

/-- For an index up to `2 ^ 29` the growth loop of `gf_fd_unused_get2` ends within its
fuel with a capacity that is at least the index (not necessarily above it), keeps every
old slot, and leaves every new slot empty. -/
theorem unused_get2_grow_spec (fuel : Nat) :
    ∀ (t : fdtable_t) (fd : Nat), fd ≤ 2 ^ 29 → fd ≤ t.max_fds + fuel →
      ∃ t1, unused_get2_grow (fuel + 1) t fd = some t1 ∧ fd ≤ t1.max_fds ∧
        t.max_fds ≤ t1.max_fds ∧ (∀ j, j < t.max_fds → t1.fds j = t.fds j) ∧
        (t.max_fds < fd → ∀ j, t.max_fds ≤ j → t1.fds j = none) ∧
        (¬ t.max_fds < fd → t1 = t) := by
  induction fuel with
  | zero =>
    intro t fd _ hf
    have hn : ¬ t.max_fds < fd := by omega
    exact ⟨t, unused_get2_grow_in_range 0 t fd hn, by omega, Nat.le_refl _, fun _ _ => rfl,
      fun h => absurd h hn, fun _ => rfl⟩
  | succ fuel ih =>
    intro t fd hfd hf
    by_cases hlt : t.max_fds < fd
    · obtain ⟨t1, hx1, hx2, _, _, _, hx6, hx7⟩ := gf_fd_fdtable_expand_step t (by omega)
      obtain ⟨t2, hy1, hy2, hy3, hy4, hy5, hy6⟩ := ih t1 fd hfd (by omega)
      refine ⟨t2, ?_, hy2, by omega, ?_, ?_, fun h => absurd hlt h⟩
      · rw [unused_get2_grow]
        simp only [hlt, if_true, hx1, Option.some_bind]
        exact hy1
      · intro j hj
        rw [hy4 j (by omega), hx6 j hj]
      · intro _ j hj
        by_cases hg : t1.max_fds < fd
        · by_cases hj1 : j < t1.max_fds
          · rw [hy4 j hj1, hx7 j hj]
          · exact hy5 hg j (by omega)
        · rw [hy6 hg]
          exact hx7 j hj
    · exact ⟨t, unused_get2_grow_in_range _ t fd hlt, by omega, Nat.le_refl _,
        fun _ _ => rfl, fun h => absurd h hlt, fun _ => rfl⟩

/-- For an index `0 ≤ i ≤ 2 ^ 29` and a live object, `gf_fd_unused_get2` first grows the
table to a capacity of at least `i`, keeping every old slot.  If `i` is then below the
capacity and slot `i` is empty, the call returns `i`, installs the object there, adds
exactly one to its count and changes no other slot; if `i` equals the capacity the call
has no defined result. -/
theorem gf_fd_unused_get2_free_slot (t : fdtable_t) (p : fd_ptr) (i : Int) (w : world)
    (f : fd_t) (n : inode_ptr) (ino : inode_t) (h0 : 0 ≤ i) (hi : i.toNat ≤ 2 ^ 29)
    (hf : w.fd p = some f) (hn : f.inode = some n) (hino : w.inode n = some ino) :
    ∃ t1, unused_get2_grow (i.toNat + 1) t i.toNat = some t1 ∧
      i.toNat ≤ t1.max_fds ∧ t.max_fds ≤ t1.max_fds ∧
      (∀ j, j < t.max_fds → t1.fds j = t.fds j) ∧
      (i.toNat < t1.max_fds → t1.fds i.toNat = none →
        gf_fd_unused_get2 (some t) (some p) i w
          = some (i, some { t1 with fds := store t1.fds i.toNat (some p) },
              { w with fd := store w.fd p (some { f with refcount := f.refcount + 1 }) })) ∧
      (i.toNat = t1.max_fds → gf_fd_unused_get2 (some t) (some p) i w = none) := by
  obtain ⟨t1, h1, h2, h3, h4, _, _⟩ := unused_get2_grow_spec i.toNat t i.toNat hi (by omega)
  have hneg : ¬ i < 0 := by omega
  refine ⟨t1, h1, h2, h3, h4, ?_, ?_⟩
  · intro hlt he
    simp only [gf_fd_unused_get2, hneg, if_false, h1, hlt, if_true, he,
      fd_ref_live w p f n ino hf hn hino, Option.map_some']
  · intro heq
    have hnlt : ¬ i.toNat < t1.max_fds := by omega
    simp only [gf_fd_unused_get2, hneg, if_false, h1, hnlt]
/-! ## The rounding and the capacity it gives -/

/-- C20: `gf_fd_unused_get` called with a null object on a fresh table returns `EINVAL`,
the value `22`, which is not negative, and slot `22` of the table is empty afterwards;
called with a null table it also returns `22`.  `gf_fd_unused_get2` returns `-1` for the
same invalid arguments. -/
theorem gf_fd_unused_get_invalid_argument_value :
    (gf_fd_unused_get gf_fd_fdtable_alloc none).map
        (fun r => (r.1, decide (0 ≤ r.1), r.2.bind (fun t => t.fds 22)))
      = some (22, true, none) ∧
    (gf_fd_unused_get none (some 1)).map (fun r => (r.1, r.2.isSome)) = some (22, false) ∧
    (gf_fd_unused_get2 gf_fd_fdtable_alloc none 0 world_bound).map (fun r => r.1)
      = some (-1) := by
  refine ⟨?_, ?_, ?_⟩ <;> decide

/-- For `2 ≤ nr ≤ 2 ^ 31` the exponent of the power of two that
`gf_roundup_power_of_two` returns is the bit length of `nr - 1`. -/
theorem gf_roundup_power_of_two_eq_bit_length (nr : Nat) (h2 : 2 ≤ nr) (h : nr ≤ 2 ^ 31) :
    gf_roundup_power_of_two nr = roundup_bit_length nr := by
  obtain ⟨e, he1, he2, _, he4, _⟩ := gf_roundup_power_of_two_spec nr h
  have he4 := he4 (by omega)
  have hne : e ≠ 0 := by
    intro h0
    subst h0
    simp at he2
    omega
  obtain ⟨e1, rfl⟩ : ∃ e1, e = e1 + 1 := ⟨e - 1, by omega⟩
  have hsize : Nat.size (nr - 1) = e1 + 1 := by
    apply Nat.le_antisymm
    · rw [Nat.size_le]
      omega
    · have : e1 < Nat.size (nr - 1) := by
        rw [Nat.lt_size]
        rw [Nat.pow_succ] at he4
        omega
      omega
  rw [he1, roundup_bit_length, hsize]

/-- The capacity that `gf_fd_fdtable_expand` computes for a request `n < 2 ^ 31` is the
least power-of-two multiple of the block unit that is strictly greater than `n`, and
it is at most `2 ^ 31`. -/
theorem expand_capacity_value (n : Nat) (hn : n < 2 ^ 31) :
    ∃ e, e ≤ 24 ∧
      gf_roundup_power_of_two ((n / fd_block + 1) % UINT32_MOD) * fd_block % UINT32_MOD
        = fd_block * 2 ^ e ∧
      n < fd_block * 2 ^ e ∧ (∀ j, n < fd_block * 2 ^ j → e ≤ j) := by
  have hb : fd_block = 128 := by decide
  have hq : n / 128 + 1 ≤ 2 ^ 24 := by
    have : (2 : Nat) ^ 31 = 128 * 2 ^ 24 := by norm_num
    omega
  have hm : (n / 128 + 1) % 2 ^ 32 = n / 128 + 1 :=
    Nat.mod_eq_of_lt (by
      have : (2 : Nat) ^ 24 < 2 ^ 32 := by norm_num
      omega)
  obtain ⟨e, he1, he2, _, he4, he5⟩ :=
    gf_roundup_power_of_two_spec (n / 128 + 1) (by
      have : (2 : Nat) ^ 24 ≤ 2 ^ 31 := by norm_num
      omega)
  have hleast : ∀ j, n < 128 * 2 ^ j → e ≤ j := by
    intro j hj
    by_contra hcon
    have h1 : 1 < n / 128 + 1 := by
      by_contra h1
      have := he5 (by omega)
      omega
    have h2 := he4 h1
    have hp : (2 : Nat) ^ (j + 1) ≤ 2 ^ e := Nat.pow_le_pow_right (by norm_num) (by omega)
    rw [Nat.pow_succ] at hp
    omega
  have he24 : e ≤ 24 := hleast 24 (by
    have : (2 : Nat) ^ 31 = 128 * 2 ^ 24 := by norm_num
    omega)
  have hpow : (2 : Nat) ^ e ≤ 2 ^ 24 := Nat.pow_le_pow_right (by norm_num) he24
  refine ⟨e, he24, ?_, by rw [hb]; omega, by rw [hb]; exact hleast⟩
  rw [hb]
  simp only [UINT32_MOD, hm, he1]
  rw [Nat.mul_comm]
  exact Nat.mod_eq_of_lt (by
    have : (2 : Nat) ^ 32 = 256 * 2 ^ 24 := by norm_num
    omega)

/-- Whenever `gf_fd_fdtable_expand` has a defined result, the capacity of the result is
the value computed from the request alone. -/
theorem gf_fd_fdtable_expand_max_fds (t t1 : fdtable_t) (n : Nat)
    (h : gf_fd_fdtable_expand t n = some t1) :
    t1.max_fds
      = gf_roundup_power_of_two ((n / fd_block + 1) % UINT32_MOD) * fd_block % UINT32_MOD := by
  unfold gf_fd_fdtable_expand at h
  simp only at h
  split at h
  · cases h
    rfl
  · cases h

/-- A request `n < 2 ^ 31` that is at least the current capacity always has a defined
result: the copy fits in the new array. -/
theorem gf_fd_fdtable_expand_defined (t : fdtable_t) (n : Nat) (hn : n < 2 ^ 31)
    (hle : t.max_fds ≤ n) : ∃ t1, gf_fd_fdtable_expand t n = some t1 := by
  obtain ⟨e, _, he2, he3, _⟩ := expand_capacity_value n hn
  have hs : sizeof_fdptr = 8 := rfl
  have hcpy : t.max_fds * sizeof_fdptr % UINT32_MOD ≤ t.max_fds * sizeof_fdptr :=
    Nat.mod_le _ _
  have hcond : t.max_fds * sizeof_fdptr % UINT32_MOD
      ≤ gf_roundup_power_of_two ((n / fd_block + 1) % UINT32_MOD) * fd_block % UINT32_MOD
          * sizeof_fdptr := by
    rw [he2, hs] at *
    omega
  unfold gf_fd_fdtable_expand
  simp only [hcond, if_true]
  exact ⟨_, rfl⟩

/-- C18, as stated, fails for a request of `2 ^ 31` or more: for `n = 2 ^ 31` the rounding
gives `2 ^ 25` (the least power of two that is at least `n / 128 + 1`), the product with
the block unit is `2 ^ 32`, and the `uint32_t` capacity that `gf_fd_fdtable_expand` sets
is `0`, which is not greater than `n`. -/
theorem gf_fd_fdtable_expand_wraps_at_two_pow_31 :
    gf_roundup_power_of_two (2147483648 / fd_block + 1) = 2 ^ 25 ∧
    2 ^ 25 * fd_block = UINT32_MOD ∧
    (gf_fd_fdtable_expand { max_fds := 0, fds := fun _ => none } 2147483648).map
      (fun t => t.max_fds) = some 0 ∧
    ¬ (∃ t1, gf_fd_fdtable_expand { max_fds := 0, fds := fun _ => none } 2147483648
        = some t1 ∧ 2147483648 < t1.max_fds) := by
  refine ⟨by decide, by decide, by decide, ?_⟩
  rintro ⟨t1, h1, h2⟩
  have h3 := gf_fd_fdtable_expand_max_fds _ t1 _ h1
  have h4 : gf_roundup_power_of_two ((2147483648 / fd_block + 1) % UINT32_MOD) * fd_block
      % UINT32_MOD = 0 := by decide
  omega

/-- C18, amended: `gf_roundup_power_of_two` returns `1` for `0` and for `1`; for
`2 ≤ nr ≤ 2 ^ 31` its loop ends and it returns the least power of two that is at least
`nr` (so `nr` itself when `nr` is a power of two), which is the value
`2 ^ bitlength (nr - 1)` of the bit-length formula; and for a request `n < 2 ^ 31` the
capacity `gf_fd_fdtable_expand` sets is the least power-of-two multiple of the block unit
strictly greater than `n` (the call has a defined result whenever the request is at least
the old capacity). -/
theorem gf_roundup_power_of_two_next_power :
    gf_roundup_power_of_two 0 = 1 ∧ gf_roundup_power_of_two 1 = 1 ∧
    (∀ nr, 2 ≤ nr → nr ≤ 2 ^ 31 →
      (∃ e, gf_roundup_power_of_two nr = 2 ^ e ∧ nr ≤ 2 ^ e ∧ ∀ j, nr ≤ 2 ^ j → e ≤ j) ∧
      (∀ d, nr = 2 ^ d → gf_roundup_power_of_two nr = nr) ∧
      gf_roundup_power_of_two nr = roundup_bit_length nr) ∧
    (∀ (t : fdtable_t) (n : Nat), n < 2 ^ 31 →
      (∀ t1, gf_fd_fdtable_expand t n = some t1 →
        ∃ k, t1.max_fds = fd_block * 2 ^ k ∧ n < fd_block * 2 ^ k ∧
          ∀ j, n < fd_block * 2 ^ j → k ≤ j) ∧
      (t.max_fds ≤ n → ∃ t1, gf_fd_fdtable_expand t n = some t1)) := by
  refine ⟨by decide, by decide, ?_, ?_⟩
  · intro nr h2 h
    obtain ⟨e, he1, he2, _, he4, _⟩ := gf_roundup_power_of_two_spec nr h
    have he4 := he4 (by omega)
    have hleast : ∀ j, nr ≤ 2 ^ j → e ≤ j := by
      intro j hj
      by_contra hcon
      have hp : (2 : Nat) ^ (j + 1) ≤ 2 ^ e := Nat.pow_le_pow_right (by norm_num) (by omega)
      rw [Nat.pow_succ] at hp
      omega
    refine ⟨⟨e, he1, he2, hleast⟩, ?_, gf_roundup_power_of_two_eq_bit_length nr h2 h⟩
    intro d hd
    have h1 : e ≤ d := hleast d (by omega)
    have h3 : (2 : Nat) ^ e ≤ 2 ^ d := Nat.pow_le_pow_right (by norm_num) h1
    omega
  · intro t n hn
    refine ⟨?_, gf_fd_fdtable_expand_defined t n hn⟩
    intro t1 h1
    obtain ⟨e, _, he2, he3, he4⟩ := expand_capacity_value n hn
    exact ⟨e, by rw [gf_fd_fdtable_expand_max_fds t t1 n h1, he2], he3, he4⟩

/-- Witness of C18 at `nr = 5` and at the request `130` on an empty table. -/
theorem gf_roundup_power_of_two_next_power_witness :
    (∃ e, gf_roundup_power_of_two 5 = 2 ^ e ∧ 5 ≤ 2 ^ e ∧ e ≤ 3) ∧
    gf_roundup_power_of_two 5 = roundup_bit_length 5 ∧
    (∃ t1, gf_fd_fdtable_expand { max_fds := 0, fds := fun _ => none } 130 = some t1) := by
  have h := gf_roundup_power_of_two_next_power.2.2.1 5 (by decide) (by norm_num)
  obtain ⟨⟨e, h1, h2, h3⟩, _, h4⟩ := h
  exact ⟨⟨e, h1, h2, h3 3 (by norm_num)⟩, h4,
    (gf_roundup_power_of_two_next_power.2.2.2 { max_fds := 0, fds := fun _ => none } 130
      (by norm_num)).2 (by decide)⟩
/-! ## The capacity of reachable tables -/

/-- The growth step `gf_fd_fdtable_expand (fdtable, max_fds + 1)` on a table whose
capacity is a power-of-two multiple of the block unit below `2 ^ 31`: the capacity of
a result, when there is one, is again such a multiple, at most `2 ^ 31`, and it is
strictly larger. -/
theorem expand_step_capacity (t t1 : fdtable_t) (k : Nat) (hk : t.max_fds = fd_block * 2 ^ k)
    (hlt : t.max_fds < 2 ^ 31)
    (h : gf_fd_fdtable_expand t ((t.max_fds + 1) % UINT32_MOD) = some t1) :
    ∃ e, e ≤ 24 ∧ t1.max_fds = fd_block * 2 ^ e ∧ t.max_fds < t1.max_fds := by
  have hb : fd_block = 128 := by decide
  have hn : t.max_fds + 1 < 2 ^ 31 := by
    rw [hb] at hk
    generalize (2 : Nat) ^ k = y at hk
    have : (2 : Nat) ^ 31 = 2147483648 := by norm_num
    omega
  have hmod : (t.max_fds + 1) % UINT32_MOD = t.max_fds + 1 :=
    Nat.mod_eq_of_lt (by
      have : (2 : Nat) ^ 31 < 2 ^ 32 := by norm_num
      simp only [UINT32_MOD]
      omega)
  rw [hmod] at h
  obtain ⟨e, he1, he2, he3, _⟩ := expand_capacity_value (t.max_fds + 1) hn
  refine ⟨e, he1, by rw [gf_fd_fdtable_expand_max_fds t t1 _ h, he2], ?_⟩
  rw [gf_fd_fdtable_expand_max_fds t t1 _ h, he2]
  omega

/-- The growth loop of `gf_fd_unused_get2` for an `int32_t` index keeps the capacity a
power-of-two multiple of the block unit of at most `2 ^ 31` and never lowers it. -/
theorem unused_get2_grow_capacity (fuel : Nat) :
    ∀ (t t1 : fdtable_t) (fd : Nat), fd ≤ INT32_MAX →
      (∃ k, k ≤ 24 ∧ t.max_fds = fd_block * 2 ^ k) →
      unused_get2_grow fuel t fd = some t1 →
      (∃ k, k ≤ 24 ∧ t1.max_fds = fd_block * 2 ^ k) ∧ t.max_fds ≤ t1.max_fds := by
  induction fuel with
  | zero =>
    intro t t1 fd _ _ h
    simp [unused_get2_grow] at h
  | succ fuel ih =>
    intro t t1 fd hfd hform h
    by_cases hlt : t.max_fds < fd
    · obtain ⟨k, _, hk⟩ := hform
      have h31 : t.max_fds < 2 ^ 31 := by
        have : (2 : Nat) ^ 31 = 2147483648 := by norm_num
        simp only [INT32_MAX] at hfd
        omega
      rw [unused_get2_grow] at h
      simp only [hlt, if_true] at h
      cases hx : gf_fd_fdtable_expand t ((t.max_fds + 1) % UINT32_MOD) with
      | none => simp [hx] at h
      | some t2 =>
        simp only [hx, Option.some_bind] at h
        obtain ⟨e, he1, he2, he3⟩ := expand_step_capacity t t2 k hk h31 hx
        obtain ⟨h1, h2⟩ := ih t2 t1 fd hfd ⟨e, he1, he2⟩ h
        exact ⟨h1, by omega⟩
    · rw [unused_get2_grow_in_range fuel t fd hlt] at h
      cases h
      exact ⟨hform, Nat.le_refl _⟩

/-- A defined result of `gf_fd_fdptr_get` carries the table it was given. -/
theorem gf_fd_fdptr_get_spec_aux (t : fdtable_t) (fd : Int) (w : world) (r : Option fd_ptr)
    (t1 : Option fdtable_t) (w1 : world)
    (h : gf_fd_fdptr_get (some t) fd w = some (r, t1, w1)) : t1 = some t := by
  by_cases hneg : fd < 0
  · simp [gf_fd_fdptr_get, hneg] at h
    exact h.2.1.symm
  · by_cases hi : fd.toNat < t.max_fds
    · cases hfr : fd_ref (t.fds fd.toNat) w with
      | none => simp [gf_fd_fdptr_get, hneg, hi, hfr] at h
      | some x =>
        simp [gf_fd_fdptr_get, hneg, hi, hfr] at h
        exact h.2.1.symm
    · simp [gf_fd_fdptr_get, hneg, hi] at h
      exact h.2.1.symm

/-- Every public table operation with a defined result, called on a table whose capacity
is a power-of-two multiple of the block unit of at most `2 ^ 31`, leaves such a table,
and a capacity that is not lower. -/
theorem table_ops_capacity (t t1 : fdtable_t)
    (hform : ∃ k, k ≤ 24 ∧ t.max_fds = fd_block * 2 ^ k) :
    (∀ fdptr r, gf_fd_unused_get (some t) fdptr = some (r, some t1) →
      (∃ k, k ≤ 24 ∧ t1.max_fds = fd_block * 2 ^ k) ∧ t.max_fds ≤ t1.max_fds) ∧
    (∀ fdptr (fd r : Int) w w1, fd ≤ (INT32_MAX : Int) →
      gf_fd_unused_get2 (some t) fdptr fd w = some (r, some t1, w1) →
      (∃ k, k ≤ 24 ∧ t1.max_fds = fd_block * 2 ^ k) ∧ t.max_fds ≤ t1.max_fds) ∧
    (∀ (fd : Int) w w1, gf_fd_put (some t) fd w = some (some t1, w1) →
      t1.max_fds = t.max_fds) ∧
    (∀ (fd : Int) r w w1, gf_fd_fdptr_get (some t) fd w = some (r, some t1, w1) →
      t1.max_fds = t.max_fds) := by
  refine ⟨?_, ?_, ?_, ?_⟩
  · intro fdptr r h
    cases fdptr with
    | none =>
      simp [gf_fd_unused_get] at h
      rw [← h.2]
      exact ⟨hform, Nat.le_refl _⟩
    | some p =>
      obtain ⟨_, h2, _, _⟩ := unused_get_scan_spec t.fds t.max_fds 0
      simp only [gf_fd_unused_get] at h
      split at h
      · cases h
      · rename_i h31
        split at h
        · simp only [Option.some.injEq, Prod.mk.injEq] at h
          rw [← h.2]
          exact ⟨hform, Nat.le_refl _⟩
        · rename_i hnlt
          obtain ⟨k, _, hk⟩ := hform
          have hlt31 : t.max_fds < 2 ^ 31 := by
            have : (2 : Nat) ^ 31 = 2147483648 := by norm_num
            simp only [INT32_MAX] at h31
            omega
          cases hx : gf_fd_fdtable_expand t ((t.max_fds + 1) % UINT32_MOD) with
          | none => simp [hx] at h
          | some t2 =>
            simp only [hx] at h
            obtain ⟨e, he1, he2, he3⟩ := expand_step_capacity t t2 k hk hlt31 hx
            split at h
            · simp only [Option.some.injEq, Prod.mk.injEq] at h
              rw [← h.2]
              exact ⟨⟨e, he1, he2⟩, by simp only; omega⟩
            · cases h
  · intro fdptr fd r w w1 hfd h
    cases fdptr with
    | none =>
      simp [gf_fd_unused_get2] at h
      rw [← h.2.1]
      exact ⟨hform, Nat.le_refl _⟩
    | some p =>
      simp only [gf_fd_unused_get2] at h
      split at h
      · simp only [Option.some.injEq, Prod.mk.injEq] at h
        rw [← h.2.1]
        exact ⟨hform, Nat.le_refl _⟩
      · rename_i hneg
        have hnat : fd.toNat ≤ INT32_MAX := by
          have : ((fd.toNat : Nat) : Int) = fd := Int.toNat_of_nonneg (by omega)
          omega
        split at h
        · cases h
        · rename_i t2 hg
          obtain ⟨hf2, hle2⟩ := unused_get2_grow_capacity _ t t2 fd.toNat hnat hform hg
          split at h
          · split at h
            · cases hr : fd_ref (some p) w with
              | none => simp [hr] at h
              | some x =>
                simp only [hr, Option.map_some', Option.some.injEq, Prod.mk.injEq] at h
                rw [← h.2.1]
                exact ⟨hf2, hle2⟩
            · simp only [Option.some.injEq, Prod.mk.injEq] at h
              rw [← h.2.1]
              exact ⟨hf2, hle2⟩
          · cases h
  · intro fd w w1 h
    simp only [gf_fd_put] at h
    split at h
    · simp only [Option.some.injEq, Prod.mk.injEq] at h
      rw [← h.1]
    · split at h
      · simp only [Option.some.injEq, Prod.mk.injEq] at h
        rw [← h.1]
      · cases hu : fd_unref (t.fds fd.toNat) w with
        | none => simp [hu] at h
        | some x =>
          simp only [hu, Option.map_some', Option.some.injEq, Prod.mk.injEq] at h
          rw [← h.1]
  · intro fd r w w1 h
    have := (gf_fd_fdptr_get_spec_aux t fd w r (some t1) w1 h)
    cases this
    rfl

/-- C13: for a request `n < 2 ^ 31` the capacity that `gf_fd_fdtable_expand` stores in
`max_fds`, a value that depends on the request alone, is `fd_block * 2 ^ k` for some `k`
and covers `n`; it is the capacity of every defined result, and the result is defined
whenever the request is at least the old capacity; on an empty table a request for `1`
gives `128` slots and a request for `130` gives `256`; and every table reachable from
`gf_fd_fdtable_alloc` has a capacity `fd_block * 2 ^ k`. -/
theorem gf_fd_fdtable_expand_capacity_form :
    (∀ (n : Nat), n < 2 ^ 31 →
      ∃ k, gf_roundup_power_of_two ((n / fd_block + 1) % UINT32_MOD) * fd_block % UINT32_MOD
          = fd_block * 2 ^ k ∧
        n ≤ fd_block * 2 ^ k ∧
        (∀ t t1, gf_fd_fdtable_expand t n = some t1 → t1.max_fds = fd_block * 2 ^ k) ∧
        (∀ t : fdtable_t, t.max_fds ≤ n → ∃ t1, gf_fd_fdtable_expand t n = some t1)) ∧
    fd_block = 128 ∧
    (gf_fd_fdtable_expand { max_fds := 0, fds := fun _ => none } 1).map
      (fun t => t.max_fds) = some 128 ∧
    (gf_fd_fdtable_expand { max_fds := 0, fds := fun _ => none } 130).map
      (fun t => t.max_fds) = some 256 ∧
    (∀ t, reachable_table t → ∃ k, t.max_fds = fd_block * 2 ^ k) := by
  refine ⟨?_, by decide, by decide, by decide, ?_⟩
  · intro n hn
    obtain ⟨e, _, he2, he3, _⟩ := expand_capacity_value n hn
    refine ⟨e, he2, by omega, ?_, fun t ht => gf_fd_fdtable_expand_defined t n hn ht⟩
    intro t t1 h1
    rw [gf_fd_fdtable_expand_max_fds t t1 n h1, he2]
  · intro t ht
    have key : ∃ k, k ≤ 24 ∧ t.max_fds = fd_block * 2 ^ k := by
      induction ht with
      | alloc t h =>
        obtain ⟨e, he1, he2, _, _⟩ := expand_capacity_value 0 (by norm_num)
        exact ⟨e, he1, by rw [gf_fd_fdtable_expand_max_fds _ t 0 h, he2]⟩
      | allocate t t1 fdptr r _ h ih => exact ((table_ops_capacity t t1 ih).1 fdptr r h).1
      | allocate_at t t1 fdptr fd r w w1 _ hfd h ih =>
        exact ((table_ops_capacity t t1 ih).2.1 fdptr fd r w w1 hfd h).1
      | release t t1 fd w w1 _ h ih =>
        obtain ⟨k, hk1, hk2⟩ := ih
        exact ⟨k, hk1, by rw [(table_ops_capacity t t1 ⟨k, hk1, hk2⟩).2.2.1 fd w w1 h, hk2]⟩
      | get t t1 fd r w w1 _ h ih =>
        obtain ⟨k, hk1, hk2⟩ := ih
        exact ⟨k, hk1, by rw [(table_ops_capacity t t1 ⟨k, hk1, hk2⟩).2.2.2 fd r w w1 h, hk2]⟩
    obtain ⟨k, _, hk⟩ := key
    exact ⟨k, hk⟩

/-- Witness of C13: the request `130` on the table `table_small` of `128` slots. -/
theorem gf_fd_fdtable_expand_capacity_form_witness :
    ∃ t1, gf_fd_fdtable_expand table_small 130 = some t1 := by
  obtain ⟨_, _, _, _, h⟩ := gf_fd_fdtable_expand_capacity_form.1 130 (by norm_num)
  exact h table_small (by decide)

/-! ## The growth loop for an `int32_t` index -/

/-- The growth step on a table of `fd_block * 2 ^ k < 2 ^ 31` slots has a defined result
with exactly twice the capacity. -/
theorem expand_step_doubles (t : fdtable_t) (k : Nat) (hk : t.max_fds = fd_block * 2 ^ k)
    (hlt : t.max_fds < 2 ^ 31) :
    ∃ t1, gf_fd_fdtable_expand t ((t.max_fds + 1) % UINT32_MOD) = some t1 ∧
      t1.max_fds = 2 * t.max_fds := by
  have hb : fd_block = 128 := by decide
  have hpos : 0 < (2 : Nat) ^ k := Nat.pow_pos (by norm_num)
  have hn : t.max_fds + 1 < 2 ^ 31 := by
    rw [hb] at hk
    generalize (2 : Nat) ^ k = y at hk
    have : (2 : Nat) ^ 31 = 2147483648 := by norm_num
    omega
  have hmod : (t.max_fds + 1) % UINT32_MOD = t.max_fds + 1 :=
    Nat.mod_eq_of_lt (by
      have : (2 : Nat) ^ 31 < 2 ^ 32 := by norm_num
      simp only [UINT32_MOD]
      omega)
  rw [hmod]
  obtain ⟨t1, ht1⟩ := gf_fd_fdtable_expand_defined t (t.max_fds + 1) hn (by omega)
  obtain ⟨e, _, he2, he3, he4⟩ := expand_capacity_value (t.max_fds + 1) hn
  refine ⟨t1, ht1, ?_⟩
  rw [gf_fd_fdtable_expand_max_fds t t1 _ ht1, he2]
  have hle : e ≤ k + 1 := he4 (k + 1) (by
    rw [hk, hb, Nat.pow_succ]
    omega)
  have hgt : k < e := by
    by_contra hcon
    have hp : (2 : Nat) ^ e ≤ 2 ^ k := Nat.pow_le_pow_right (by norm_num) (by omega)
    rw [hk, hb] at he3
    omega
  have hek : e = k + 1 := by omega
  rw [hek, hk, Nat.pow_succ]
  ring

/-- For an `int32_t` index and a table of `fd_block * 2 ^ k` slots the growth loop of
`gf_fd_unused_get2` ends within its fuel, with a capacity that is at least the index. -/
theorem unused_get2_grow_terminates (fuel : Nat) :
    ∀ (t : fdtable_t) (fd : Nat), fd ≤ INT32_MAX →
      (∃ k, k ≤ 24 ∧ t.max_fds = fd_block * 2 ^ k) → fd ≤ t.max_fds + fuel →
      ∃ t1, unused_get2_grow (fuel + 1) t fd = some t1 ∧ fd ≤ t1.max_fds := by
  induction fuel with
  | zero =>
    intro t fd _ _ hf
    have hn : ¬ t.max_fds < fd := by omega
    exact ⟨t, unused_get2_grow_in_range 0 t fd hn, by omega⟩
  | succ fuel ih =>
    intro t fd hfd hform hf
    by_cases hlt : t.max_fds < fd
    · obtain ⟨k, _, hk⟩ := hform
      have h31 : t.max_fds < 2 ^ 31 := by
        have : (2 : Nat) ^ 31 = 2147483648 := by norm_num
        simp only [INT32_MAX] at hfd
        omega
      obtain ⟨t2, hx, _⟩ := expand_step_doubles t k hk h31
      obtain ⟨e, he1, he2, he3⟩ := expand_step_capacity t t2 k hk h31 hx
      obtain ⟨t1, h1, h2⟩ := ih t2 fd hfd ⟨e, he1, he2⟩ (by omega)
      refine ⟨t1, ?_, h2⟩
      rw [unused_get2_grow]
      simp only [hlt, if_true, hx, Option.some_bind]
      exact h1
    · exact ⟨t, unused_get2_grow_in_range _ t fd hlt, by omega⟩

/-- C19: on the table of `2 ^ 29 = fd_block * 2 ^ 22` slots and for the index `2 ^ 29 + 1`
the growth loop of `gf_fd_unused_get2` ends with the doubled capacity `2 ^ 30`, but the
call `gf_fd_fdtable_expand (fdtable, 2 ^ 29 + 1)` computes the byte count
`oldmax_fds * sizeof (fd_t *) = 2 ^ 32`, which exceeds `2 ^ 32 - 1`, and stores `0`. -/
theorem unused_get2_grow_byte_count_exceeds_uint32 :
    table_wide.map (fun t => t.max_fds) = some (fd_block * 2 ^ 22) ∧
    (table_wide.bind (fun t => unused_get2_grow 536870914 t 536870913)).map
      (fun t => t.max_fds) = some 1073741824 ∧
    expand_raw_values 536870912 536870913 = [4194305, 8388608, 1073741824, 4294967296] ∧
    (2 ^ 32 - 1 < 536870912 * sizeof_fdptr) ∧
    536870912 * sizeof_fdptr % UINT32_MOD = 0 := by
  refine ⟨?_, ?_, ?_, ?_, ?_⟩ <;> decide

/-- C14: the table of `2 ^ 29` slots reached from a fresh table by one
`gf_fd_unused_get2` at index `536870911` holds an object in that slot; a further
`gf_fd_unused_get2` at index `1073741823` grows the table to `2 ^ 30` slots (the capacity
is not lower), but slot `536870911` is empty after the growth. -/
theorem gf_fd_unused_get2_growth_empties_reachable_table :
    (∃ t, table_wide = some t ∧ reachable_table t) ∧
    table_wide.map (fun t => (t.max_fds, t.fds 536870911)) = some (536870912, some 1) ∧
    (gf_fd_unused_get2 table_wide (some 1) 1073741823 world_bound).map
        (fun r => (r.1, r.2.1.map (fun t => t.max_fds),
          r.2.1.bind (fun t => t.fds 536870911)))
      = some (1073741823, some 1073741824, none) := by
  refine ⟨?_, by decide, by decide⟩
  have h0 : gf_fd_fdtable_alloc.isSome = true := by decide
  obtain ⟨t0, ht0⟩ := Option.isSome_iff_exists.mp h0
  have h1 : table_wide.isSome = true := by decide
  obtain ⟨t, ht⟩ := Option.isSome_iff_exists.mp h1
  refine ⟨t, ht, ?_⟩
  unfold table_wide at ht
  cases hx : gf_fd_unused_get2 gf_fd_fdtable_alloc (some 1) 536870911 world_bound with
  | none => simp [hx] at ht
  | some x =>
    obtain ⟨r, ot, w1⟩ := x
    simp only [hx, Option.some_bind] at ht
    subst ht
    rw [ht0] at hx
    exact reachable_table.allocate_at t0 t (some 1) 536870911 r world_bound w1
      (reachable_table.alloc t0 ht0) (by decide) hx
/-! ## Lookup in the owner's list -/

/-- On a list of live objects the scan of `fd_lookup` has a result: either no entry is
accepted (then `pid` is not `0` and no entry has this pid), or the result is the first
entry in list order that is accepted. -/
theorem fd_lookup_scan_spec (w : world) (pid : Int) (l : List fd_ptr)
    (hlive : ∀ q ∈ l, ∃ f, w.fd q = some f) :
    (fd_lookup_scan w pid l = some none ∧
        ∀ q ∈ l, ∀ f, w.fd q = some f → pid ≠ 0 ∧ f.pid ≠ pid) ∨
    (∃ l1 q l2 f, l = l1 ++ q :: l2 ∧ fd_lookup_scan w pid l = some (some q) ∧
        w.fd q = some f ∧ (pid = 0 ∨ f.pid = pid) ∧
        ∀ r ∈ l1, ∀ g, w.fd r = some g → pid ≠ 0 ∧ g.pid ≠ pid) := by
  induction l with
  | nil => exact Or.inl ⟨rfl, fun q hq => by simp at hq⟩
  | cons a l ih =>
    obtain ⟨fa, hfa⟩ := hlive a (by simp)
    by_cases hacc : pid = 0 ∨ fa.pid = pid
    · refine Or.inr ⟨[], a, l, fa, rfl, ?_, hfa, hacc, fun r hr => by simp at hr⟩
      rcases hacc with h0 | hp
      · simp [fd_lookup_scan, hfa, h0]
      · by_cases h0 : pid = 0
        · simp [fd_lookup_scan, hfa, h0]
        · simp [fd_lookup_scan, hfa, h0, hp]
    · have h0 : pid ≠ 0 := fun h => hacc (Or.inl h)
      have hp : fa.pid ≠ pid := fun h => hacc (Or.inr h)
      have hstep : fd_lookup_scan w pid (a :: l) = fd_lookup_scan w pid l := by
        simp [fd_lookup_scan, hfa, h0, hp]
      rcases ih (fun q hq => hlive q (by simp [hq])) with ⟨h1, h2⟩ | ⟨l1, q, l2, f, e, h1, h2, h3, h4⟩
      · refine Or.inl ⟨by rw [hstep, h1], ?_⟩
        intro q hq f hf
        rcases List.mem_cons.mp hq with rfl | hq
        · rw [hfa] at hf
          cases hf
          exact ⟨h0, hp⟩
        · exact h2 q hq f hf
      · refine Or.inr ⟨a :: l1, q, l2, f, by rw [e]; rfl, by rw [hstep, h1], h2, h3, ?_⟩
        intro r hr g hg
        rcases List.mem_cons.mp hr with rfl | hr
        · rw [hfa] at hg
          cases hg
          exact ⟨h0, hp⟩
        · exact h4 r hr g hg

/-- A defined result of the scan of `fd_lookup` is an entry of the list. -/
theorem fd_lookup_scan_mem (w : world) (pid : Int) (l : List fd_ptr) (q : fd_ptr)
    (h : fd_lookup_scan w pid l = some (some q)) : q ∈ l := by
  induction l with
  | nil => simp [fd_lookup_scan] at h
  | cons a l ih =>
    simp only [fd_lookup_scan] at h
    split at h
    · cases h
    · split at h
      · split at h
        · cases h
          simp
        · exact List.mem_cons_of_mem _ (ih h)
      · cases h
        simp

/-- The handle `fd_lookup` returns is an entry of the owner's list. -/
theorem fd_lookup_mem (w w1 : world) (i : inode_ptr) (ino : inode_t) (pid : Int)
    (q : fd_ptr) (hino : w.inode i = some ino)
    (h : fd_lookup i pid w = some (some q, w1)) : q ∈ ino.fd_list := by
  simp only [fd_lookup, hino] at h
  split at h
  · cases h
  · cases h
  · rename_i q1 hs
    split at h
    · cases h
    · simp only [Option.some.injEq, Prod.mk.injEq] at h
      rw [← h.1]
      exact fd_lookup_scan_mem w pid _ _ hs

/-- When no entry is accepted `fd_lookup` returns the null pointer and an unchanged
heap. -/
theorem fd_lookup_none (w : world) (i : inode_ptr) (ino : inode_t) (pid : Int)
    (hino : w.inode i = some ino) (hs : fd_lookup_scan w pid ino.fd_list = some none) :
    fd_lookup i pid w = some (none, w) := by
  simp [fd_lookup, hino, hs]

/-- When the scan stops at the live entry `q`, `fd_lookup` returns `q` and adds one to
its count. -/
theorem fd_lookup_some (w : world) (i : inode_ptr) (ino : inode_t) (pid : Int) (q : fd_ptr)
    (f : fd_t) (hino : w.inode i = some ino)
    (hs : fd_lookup_scan w pid ino.fd_list = some (some q)) (hf : w.fd q = some f) :
    fd_lookup i pid w
      = some (some q,
          { w with fd := store w.fd q (some { f with refcount := f.refcount + 1 }) }) := by
  simp [fd_lookup, hino, hs, hf, _fd_ref]

/-- C12: for a non-zero `pid` and an owner whose listed handles are live, `fd_lookup`
returns a handle exactly when some listed handle has that stored pid; the returned handle
is listed, its stored pid is `pid`, and the heap afterwards differs only in that handle's
count, which is one higher; when no entry matches the result is the null pointer and the
heap is unchanged; on an empty list this holds for every pid, `0` included. -/
theorem fd_lookup_pid_spec (w : world) (i : inode_ptr) (ino : inode_t) (pid : Int)
    (hino : w.inode i = some ino) (hlive : ∀ q ∈ ino.fd_list, ∃ f, w.fd q = some f)
    (hpid : pid ≠ 0) :
    ((∃ q w1, fd_lookup i pid w = some (some q, w1)) ↔
        ∃ q ∈ ino.fd_list, ∃ f, w.fd q = some f ∧ f.pid = pid) ∧
    (∀ q w1, fd_lookup i pid w = some (some q, w1) →
        ∃ f, q ∈ ino.fd_list ∧ w.fd q = some f ∧ f.pid = pid ∧
          w1 = { w with fd := store w.fd q (some { f with refcount := f.refcount + 1 }) }) ∧
    ((¬ ∃ q ∈ ino.fd_list, ∃ f, w.fd q = some f ∧ f.pid = pid) →
        fd_lookup i pid w = some (none, w)) ∧
    (∀ pid0, ino.fd_list = [] → fd_lookup i pid0 w = some (none, w)) := by
  have hret : ∀ q w1, fd_lookup i pid w = some (some q, w1) →
      ∃ f, q ∈ ino.fd_list ∧ w.fd q = some f ∧ f.pid = pid ∧
        w1 = { w with fd := store w.fd q (some { f with refcount := f.refcount + 1 }) } := by
    intro q w1 h
    rcases fd_lookup_scan_spec w pid ino.fd_list hlive with ⟨h1, _⟩ | ⟨l1, q1, l2, f, e, h1, h2, h3, _⟩
    · rw [fd_lookup_none w i ino pid hino h1] at h
      cases h
    · rw [fd_lookup_some w i ino pid q1 f hino h1 h2] at h
      simp only [Option.some.injEq, Prod.mk.injEq] at h
      obtain ⟨hq, hw⟩ := h
      subst hq
      refine ⟨f, by rw [e]; simp, h2, ?_, hw.symm⟩
      rcases h3 with h0 | hp
      · exact absurd h0 hpid
      · exact hp
  have hnone : (¬ ∃ q ∈ ino.fd_list, ∃ f, w.fd q = some f ∧ f.pid = pid) →
      fd_lookup i pid w = some (none, w) := by
    intro hno
    rcases fd_lookup_scan_spec w pid ino.fd_list hlive with ⟨h1, _⟩ | ⟨l1, q1, l2, f, e, h1, h2, h3, _⟩
    · exact fd_lookup_none w i ino pid hino h1
    · exfalso
      apply hno
      refine ⟨q1, by rw [e]; simp, f, h2, ?_⟩
      rcases h3 with h0 | hp
      · exact absurd h0 hpid
      · exact hp
  refine ⟨⟨?_, ?_⟩, hret, hnone, ?_⟩
  · rintro ⟨q, w1, h⟩
    obtain ⟨f, hm, hf, hp, _⟩ := hret q w1 h
    exact ⟨q, hm, f, hf, hp⟩
  · intro hex
    by_contra hcon
    rcases fd_lookup_scan_spec w pid ino.fd_list hlive with ⟨h1, h2⟩ | ⟨l1, q1, l2, f, e, h1, h2, _, _⟩
    · obtain ⟨q, hm, f, hf, hp⟩ := hex
      exact (h2 q hm f hf).2 hp
    · exact hcon ⟨q1, _, fd_lookup_some w i ino pid q1 f hino h1 h2⟩
  · intro pid0 hnil
    exact fd_lookup_none w i ino pid0 hino (by rw [hnil]; rfl)

/-- Witness of C12: the lookup of pid `7` on the owner of `world_bound`, whose list holds
the one object of pid `7`. -/
theorem fd_lookup_pid_spec_witness :
    ∃ f, 1 ∈ [1] ∧ world_bound.fd 1 = some f ∧ f.pid = 7 ∧
      (world_after (fd_lookup 0 7 world_bound))
        = { world_bound with
            fd := store world_bound.fd 1 (some { f with refcount := f.refcount + 1 }) } :=
  (fd_lookup_pid_spec world_bound 0 ⟨false, [1], []⟩ 7 rfl
    (fun q hq => by
      simp only [List.mem_singleton] at hq
      subst hq
      exact ⟨_, rfl⟩)
    (by decide)).2.1 1 (world_after (fd_lookup 0 7 world_bound)) rfl
/-! ## The order of the owner's list -/

/-- C11, as stated, fails: the object at address `1` was bound first and the object at
address `2` second (both with pid `7`, both still open); `fd_lookup` with pid `0` and
with pid `7` returns the object at `2`, not the first-bound object at `1`. -/
theorem fd_lookup_returns_last_bound :
    (world_bound.inode 0).map (fun x => x.fd_list) = some [1] ∧
    (world_two.inode 0).map (fun x => x.fd_list) = some [2, 1] ∧
    (fd_lookup 0 0 world_two).map (fun r => r.1) = some (some 2) ∧
    (fd_lookup 0 0 world_two).map (fun r => r.1) ≠ some (some 1) ∧
    (fd_lookup 0 7 world_two).map (fun r => r.1) = some (some 2) ∧
    (fd_lookup 0 7 world_two).map (fun r => r.1) ≠ some (some 1) := by
  refine ⟨?_, ?_, ?_, ?_, ?_, ?_⟩ <;> decide

/-! ## Notification at destruction -/

/-- The step of `fd_destroy` for one entry is the expected callback when there is one,
and a critical log entry otherwise. -/
theorem destroy_notify_eq (is_dir : Bool) (xl : List xlator_t) (p : fd_ptr) (key : String) :
    destroy_notify is_dir xl p key
      = (expected_callback is_dir xl p key).getD (event.log_critical p key) := by
  unfold destroy_notify expected_callback
  cases xlator_search_by_name xl key with
  | none => rfl
  | some x =>
    cases is_dir <;> cases h1 : x.has_release <;> cases h2 : x.has_releasedir <;> simp [h1, h2]

/-- The callbacks among the steps of `fd_destroy` are the expected callbacks, in the
order of the entries. -/
theorem destroy_notify_callbacks (is_dir : Bool) (xl : List xlator_t) (p : fd_ptr)
    (ctx : List String) :
    (ctx.map (destroy_notify is_dir xl p)).filter is_callback
      = ctx.filterMap (expected_callback is_dir xl p) := by
  induction ctx with
  | nil => rfl
  | cons key ctx ih =>
    have hcb : ∀ e, expected_callback is_dir xl p key = some e → is_callback e = true := by
      intro e he
      unfold expected_callback at he
      split at he
      · cases he
      · split at he <;> split at he <;> cases he <;> rfl
    rw [List.map_cons, List.filterMap_cons, destroy_notify_eq]
    cases he : expected_callback is_dir xl p key with
    | none =>
      simp only [Option.getD_none]
      rw [List.filter_cons_of_neg (by simp [is_callback])]
      exact ih
    | some e =>
      simp only [Option.getD_some]
      rw [List.filter_cons_of_pos (hcb e he), ih]

/-- The expected callback is of the owner's kind: `releasedir` for a directory, `release`
otherwise, and its module is the one the key resolves to. -/
theorem expected_callback_kind (is_dir : Bool) (xl : List xlator_t) (p : fd_ptr)
    (key : String) (e : event) (h : expected_callback is_dir xl p key = some e) :
    ∃ x, xlator_search_by_name xl key = some x ∧
      ((is_dir = true ∧ x.has_releasedir = true ∧ e = event.releasedir x.name p) ∨
        (is_dir = false ∧ x.has_release = true ∧ e = event.release x.name p)) := by
  unfold expected_callback at h
  split at h
  · cases h
  · rename_i x hx
    refine ⟨x, hx, ?_⟩
    cases is_dir
    · simp only [Bool.false_eq_true, if_false] at h
      split at h
      · rename_i hr
        cases h
        exact Or.inr ⟨rfl, hr, rfl⟩
      · cases h
    · simp only [if_true] at h
      split at h
      · rename_i hr
        cases h
        exact Or.inl ⟨rfl, hr, rfl⟩
      · cases h

/-- C15: `fd_destroy` of a live handle object with a live owner makes one step per entry
of the extension context, in iteration order; the callbacks among these steps are, in
that order, exactly the callbacks of the owner's kind of the entries whose key resolves
to a module having that callback (an entry whose module is missing or lacks the callback
gives a log entry and no callback); no callback of the other kind is invoked; and after
the steps, whatever they were, the owner reference is released, the context destroyed
and the object freed. -/
theorem fd_destroy_notifies_each_module (w : world) (p : fd_ptr) (f : fd_t) (i : inode_ptr)
    (ino : inode_t) (hf : w.fd p = some f) (hi : f.inode = some i)
    (hino : w.inode i = some ino) :
    ∃ w1 notes, fd_destroy p w = some w1 ∧
      w1.trace = w.trace ++ [event.destroy_enter p] ++ notes
        ++ [event.inode_unref i, event.dict_destroy p, event.free p] ∧
      notes = f.ctx.map (fun key =>
        (expected_callback ino.is_dir ino.xl p key).getD (event.log_critical p key)) ∧
      notes.filter is_callback = f.ctx.filterMap (expected_callback ino.is_dir ino.xl p) ∧
      (∀ key e, expected_callback ino.is_dir ino.xl p key = some e →
        ∃ x, xlator_search_by_name ino.xl key = some x ∧
          ((ino.is_dir = true ∧ x.has_releasedir = true ∧ e = event.releasedir x.name p) ∨
            (ino.is_dir = false ∧ x.has_release = true ∧ e = event.release x.name p))) ∧
      (ino.is_dir = true → ∀ x q, event.release x q ∉ notes) ∧
      (ino.is_dir = false → ∀ x q, event.releasedir x q ∉ notes) ∧
      w1.fd p = none := by
  have hother : ∀ key, ∀ x q,
      (ino.is_dir = true → destroy_notify ino.is_dir ino.xl p key ≠ event.release x q) ∧
      (ino.is_dir = false →
        destroy_notify ino.is_dir ino.xl p key ≠ event.releasedir x q) := by
    intro key x q
    unfold destroy_notify
    constructor
    · intro hd
      rw [hd]
      split
      · simp
      · simp only [if_true]
        split <;> simp
    · intro hd
      rw [hd]
      split
      · simp
      · simp only [Bool.false_eq_true, if_false]
        split <;> simp
  refine ⟨{ fd := store w.fd p none, inode := w.inode,
            trace := w.trace ++ [event.destroy_enter p]
              ++ f.ctx.map (destroy_notify ino.is_dir ino.xl p)
              ++ [event.inode_unref i, event.dict_destroy p, event.free p] },
    f.ctx.map (destroy_notify ino.is_dir ino.xl p), ?_, rfl, ?_, ?_, ?_, ?_, ?_, ?_⟩
  · simp [fd_destroy, hf, hi, hino]
  · exact List.map_congr_left (fun key _ => destroy_notify_eq _ _ _ _)
  · exact destroy_notify_callbacks _ _ _ _
  · exact fun key e he => expected_callback_kind _ _ _ _ _ he
  · intro hd x q hmem
    obtain ⟨key, _, hkey⟩ := List.mem_map.mp hmem
    exact (hother key x q).1 hd hkey
  · intro hd x q hmem
    obtain ⟨key, _, hkey⟩ := List.mem_map.mp hmem
    exact (hother key x q).2 hd hkey
  · simp [store_same]

/-- Witness of C15 on `world_dir`: a directory, entries `a`, `x`, `b`, `c`; the callbacks
are `releasedir` of `a` and of `c`, in this order. -/
theorem fd_destroy_notifies_each_module_witness :
    ∃ w1 notes, fd_destroy 1 world_dir = some w1 ∧
      w1.trace = [] ++ [event.destroy_enter 1] ++ notes
        ++ [event.inode_unref 0, event.dict_destroy 1, event.free 1] ∧
      notes.filter is_callback = [event.releasedir "a" 1, event.releasedir "c" 1] ∧
      w1.fd 1 = none := by
  obtain ⟨w1, notes, h1, h2, _, h4, _, _, _, h8⟩ :=
    fd_destroy_notifies_each_module world_dir 1 ⟨7, some 0, 1, ["a", "x", "b", "c"]⟩ 0
      ⟨true, [], [⟨"a", true, true⟩, ⟨"b", true, false⟩, ⟨"c", false, true⟩]⟩ rfl rfl rfl
  exact ⟨w1, notes, h1, h2, by rw [h4]; decide, h8⟩
/-! ## The state in which `fd_destroy` starts -/

/-- The function `fd_unref` is `_fd_unref` followed, when the count it leaves is `0`, by
`fd_destroy`. -/
theorem fd_unref_eq (p : fd_ptr) (w : world) :
    fd_unref (some p) w
      = (_fd_unref p w).bind (fun w1 =>
          match w1.fd p with
          | some f1 => if f1.refcount = 0 then fd_destroy p w1 else some w1
          | none => none) := by
  cases hf : w.fd p with
  | none => simp [fd_unref, _fd_unref, hf]
  | some f =>
    cases hi : f.inode with
    | none => simp [fd_unref, _fd_unref, hf, hi]
    | some i =>
      cases hino : w.inode i with
      | none => simp [fd_unref, _fd_unref, hf, hi, hino]
      | some ino =>
        by_cases h0 : f.refcount = 0
        · simp [fd_unref, _fd_unref, hf, hi, hino, h0]
        · by_cases h1 : f.refcount - 1 = 0
          · simp [fd_unref, _fd_unref, hf, hi, hino, h0, h1, store_same]
          · simp [fd_unref, _fd_unref, hf, hi, hino, h0, h1, store_same]

/-! ## The state in which the callbacks are invoked -/

/-- Every call the notification loop makes is a callback, made in a heap with the objects
and the owners' lists of the heap at the head of the loop, and whose trace holds exactly
the steps made before this call. -/
theorem notify_calls_state (is_dir : Bool) (xl : List xlator_t) (p : fd_ptr)
    (keys : List String) :
    ∀ (w : world) (c : event × world), c ∈ notify_calls is_dir xl p keys w →
      is_callback c.1 = true ∧ c.2.fd = w.fd ∧ c.2.inode = w.inode ∧
      ∃ pre post, keys.map (destroy_notify is_dir xl p) = pre ++ c.1 :: post ∧
        c.2.trace = w.trace ++ pre := by
  induction keys with
  | nil =>
    intro w c hc
    simp [notify_calls] at hc
  | cons key keys ih =>
    intro w c hc
    simp only [notify_calls, List.mem_append] at hc
    rcases hc with hc | hc
    · split at hc
      · rename_i hcb
        simp only [List.mem_singleton] at hc
        subst hc
        exact ⟨hcb, rfl, rfl, [], keys.map (destroy_notify is_dir xl p), by simp, by simp⟩
      · simp at hc
    · obtain ⟨h1, h2, h3, pre, post, h4, h5⟩ := ih _ c hc
      exact ⟨h1, h2, h3, destroy_notify is_dir xl p key :: pre, post, by simp [h4],
        by rw [h5]; simp⟩

/-- The calls the notification loop makes are, in order, the callbacks among its steps. -/
theorem notify_calls_events (is_dir : Bool) (xl : List xlator_t) (p : fd_ptr)
    (keys : List String) :
    ∀ (w : world), (notify_calls is_dir xl p keys w).map (fun c => c.1)
      = (keys.map (destroy_notify is_dir xl p)).filter is_callback := by
  induction keys with
  | nil =>
    intro w
    rfl
  | cons key keys ih =>
    intro w
    simp only [notify_calls, List.map_append, List.map_cons, ih]
    by_cases hcb : is_callback (destroy_notify is_dir xl p key) = true
    · simp [hcb]
    · simp [hcb]

/-- C17: when `fd_unref` brings the count of a live handle object from one to zero,
`_fd_unref` has removed the object from its owner's list, without any event, in the heap
`w1` in which `fd_destroy` starts; the callbacks this `fd_unref` invokes are exactly the
callbacks among the steps of that `fd_destroy`; and each of them is invoked at its place
in the trace (the trace of its heap holds the events before it, the callback is the next
event) in a heap in which the owner's list is the list of `w1`: it does not contain the
object, `fd_lookup` cannot return the object, and `fd_list_empty` is true unless another
handle is listed. -/
theorem fd_unref_detaches_before_destroy (w : world) (p : fd_ptr) (f : fd_t) (i : inode_ptr)
    (ino : inode_t) (hf : w.fd p = some f) (hi : f.inode = some i)
    (hino : w.inode i = some ino) (h1 : f.refcount = 1) :
    ∃ w1 ino1 w2 notes, _fd_unref p w = some w1 ∧ w1.trace = w.trace ∧
      w1.inode i = some ino1 ∧ ino1.fd_list = ino.fd_list.filter (fun q => q ≠ p) ∧
      p ∉ ino1.fd_list ∧
      fd_unref (some p) w = fd_destroy p w1 ∧ fd_destroy p w1 = some w2 ∧
      w2.trace = w1.trace ++ [event.destroy_enter p] ++ notes
        ++ [event.inode_unref i, event.dict_destroy p, event.free p] ∧
      (fd_unref_calls (some p) w).map (fun c => c.1) = notes.filter is_callback ∧
      ∀ c ∈ fd_unref_calls (some p) w,
        is_callback c.1 = true ∧ (∃ post, w2.trace = c.2.trace ++ c.1 :: post) ∧
        c.2.inode i = some ino1 ∧
        (∀ pid r s, fd_lookup i pid c.2 = some (r, s) → r ≠ some p) ∧
        (fd_list_empty i c.2 = some true ∨ ∃ q, q ≠ p ∧ q ∈ ino1.fd_list) := by
  have hu : _fd_unref p w
      = some { w with fd := store w.fd p (some { f with refcount := f.refcount - 1 }),
                      inode := store w.inode i (some (list_del_init p ino)) } := by
    simp [_fd_unref, hf, hi, hino, h1]
  have hnot : p ∉ (list_del_init p ino).fd_list := by simp [list_del_init]
  have hcalls : fd_unref_calls (some p) w
      = notify_calls ino.is_dir ino.xl p f.ctx
          { fd := store w.fd p (some { f with refcount := f.refcount - 1 }),
            inode := store w.inode i (some (list_del_init p ino)),
            trace := w.trace ++ [event.destroy_enter p] } := by
    simp [fd_unref_calls, hu, store_same, h1, fd_destroy_calls, hi, list_del_init]
  refine ⟨_, list_del_init p ino,
    { fd := store w.fd p none,
      inode := store w.inode i (some (list_del_init p ino)),
      trace := w.trace ++ [event.destroy_enter p]
        ++ f.ctx.map (destroy_notify ino.is_dir ino.xl p)
        ++ [event.inode_unref i, event.dict_destroy p, event.free p] },
    f.ctx.map (destroy_notify ino.is_dir ino.xl p), hu, rfl, store_same _ _ _, rfl, hnot,
    ?_, ?_, rfl, ?_, ?_⟩
  · rw [fd_unref_eq, hu]
    simp [store_same, h1]
  · simp [fd_destroy, store_same, store_store, hi, list_del_init]
  · rw [hcalls]
    exact notify_calls_events _ _ _ _ _
  · intro c hc
    rw [hcalls] at hc
    obtain ⟨hcb, _, hin, pre, post, hsplit, htr⟩ := notify_calls_state _ _ _ _ _ c hc
    have hci : c.2.inode i = some (list_del_init p ino) := by
      rw [hin]
      exact store_same _ _ _
    refine ⟨hcb, ?_, hci, ?_, ?_⟩
    · refine ⟨post ++ [event.inode_unref i, event.dict_destroy p, event.free p], ?_⟩
      simp only [htr, hsplit]
      simp
    · intro pid r s h hr
      subst hr
      exact hnot (fd_lookup_mem c.2 s i (list_del_init p ino) pid p hci h)
    · cases hl : (list_del_init p ino).fd_list with
      | nil =>
        left
        simp [fd_list_empty, hci, hl]
      | cons q rest =>
        right
        refine ⟨q, ?_, by simp⟩
        intro hq
        apply hnot
        rw [hl, hq]
        simp

/-- Witness of C17: the last `fd_unref` of the object of `world_dir_bound`.  Before the
call the directory lists the object; the call invokes `releasedir` of the modules `a` and
`c`, each in a heap whose list for the directory is empty. -/
theorem fd_unref_detaches_before_destroy_witness :
    (world_dir_bound.inode 0).map (fun x => x.fd_list) = some [1] ∧
    (fd_unref_calls (some 1) world_dir_bound).map
        (fun c => (c.1, (c.2.inode 0).map (fun x => x.fd_list)))
      = [(event.releasedir "a" 1, some []), (event.releasedir "c" 1, some [])] ∧
    ∃ (w1 : world) (ino1 : inode_t) (w2 : world) (notes : List event),
      _fd_unref 1 world_dir_bound = some w1 ∧ w1.trace = world_dir_bound.trace ∧
      w1.inode 0 = some ino1 ∧ 1 ∉ ino1.fd_list ∧
      fd_unref (some 1) world_dir_bound = fd_destroy 1 w1 ∧ fd_destroy 1 w1 = some w2 ∧
      (fd_unref_calls (some 1) world_dir_bound).map (fun c => c.1)
        = notes.filter is_callback := by
  obtain ⟨w1, ino1, w2, notes, h1, h2, h3, _, h4, h5, h6, _, h8, _⟩ :=
    fd_unref_detaches_before_destroy world_dir_bound 1
      ⟨7, some 0, 1, ["a", "x", "b", "c"]⟩ 0
      ⟨true, [1], [⟨"a", true, true⟩, ⟨"b", true, false⟩, ⟨"c", false, true⟩]⟩
      rfl rfl rfl rfl
  exact ⟨by decide, by decide, w1, ino1, w2, notes, h1, h2, h3, h4, h5, h6, h8⟩

/-! ## Listed handles are live -/

/-- A defined result of `fd_ref` is the heap itself or the heap with the count of one
live object raised by one. -/
theorem fd_ref_inv (fd r : Option fd_ptr) (w w1 : world) (h : fd_ref fd w = some (r, w1)) :
    w1 = w ∨ ∃ p f, w.fd p = some f ∧
      w1 = { w with fd := store w.fd p (some { f with refcount := f.refcount + 1 }) } := by
  cases fd with
  | none =>
    simp [fd_ref] at h
    exact Or.inl h.2.symm
  | some p =>
    cases hf : w.fd p with
    | none => simp [fd_ref, hf] at h
    | some f =>
      cases hi : f.inode with
      | none => simp [fd_ref, hf, hi] at h
      | some i =>
        cases hino : w.inode i with
        | none => simp [fd_ref, hf, hi, hino] at h
        | some ino =>
          rw [fd_ref_live w p f i ino hf hi hino] at h
          simp only [Option.some.injEq, Prod.mk.injEq] at h
          exact Or.inr ⟨p, f, hf, h.2.symm⟩

/-- A defined result of `fd_lookup` is the heap itself or the heap with the count of one
live object raised by one. -/
theorem fd_lookup_inv (i : inode_ptr) (pid : Int) (r : Option fd_ptr) (w w1 : world)
    (h : fd_lookup i pid w = some (r, w1)) :
    w1 = w ∨ ∃ p f, w.fd p = some f ∧
      w1 = { w with fd := store w.fd p (some { f with refcount := f.refcount + 1 }) } := by
  simp only [fd_lookup] at h
  split at h
  · cases h
  · split at h
    · cases h
    · simp only [Option.some.injEq, Prod.mk.injEq] at h
      exact Or.inl h.2.symm
    · rename_i q _
      split at h
      · cases h
      · rename_i f hf
        simp only [Option.some.injEq, Prod.mk.injEq] at h
        exact Or.inr ⟨q, f, hf, h.2.symm⟩

/-- A defined result of `fd_unref` is the heap itself, the heap with the count of a live
object lowered by one to a positive value, or the heap in which a live object of count
one is freed and unlinked from its owner's list. -/
theorem fd_unref_inv (fd : Option fd_ptr) (w w1 : world) (h : fd_unref fd w = some w1) :
    w1 = w ∨
    (∃ p f, w.fd p = some f ∧ 1 < f.refcount ∧
      w1 = { w with fd := store w.fd p (some { f with refcount := f.refcount - 1 }) }) ∨
    (∃ p f i ino, w.fd p = some f ∧ f.inode = some i ∧ w.inode i = some ino ∧
      w1.fd = store w.fd p none ∧
      w1.inode = store w.inode i (some (list_del_init p ino))) := by
  cases fd with
  | none =>
    simp [fd_unref] at h
    exact Or.inl h.symm
  | some p =>
    cases hf : w.fd p with
    | none => simp [fd_unref, hf] at h
    | some f =>
      cases hi : f.inode with
      | none => simp [fd_unref, hf, hi] at h
      | some i =>
        cases hino : w.inode i with
        | none => simp [fd_unref, hf, hi, hino] at h
        | some ino =>
          by_cases h0 : f.refcount = 0
          · simp [fd_unref, hf, hi, hino, h0] at h
          · by_cases h1 : f.refcount = 1
            · rw [fd_unref_last w p f i ino hf hi hino h1] at h
              simp only [Option.some.injEq] at h
              exact Or.inr (Or.inr ⟨p, f, i, ino, hf, hi, hino, by rw [← h], by rw [← h]⟩)
            · rw [fd_unref_live w p f i ino hf hi hino (by omega)] at h
              simp only [Option.some.injEq] at h
              exact Or.inr (Or.inl ⟨p, f, hf, by omega, h.symm⟩)

/-- The invariant is kept when the count of a live object is set to a positive value. -/
theorem listed_live_set_count (w : world) (p : fd_ptr) (f : fd_t) (c : Nat)
    (hinv : listed_live w) (hf : w.fd p = some f) (hc : 0 < c) :
    listed_live { w with fd := store w.fd p (some { f with refcount := c }) } := by
  obtain ⟨h1, h2⟩ := hinv
  constructor
  · intro q g hg
    by_cases hq : q = p
    · subst hq
      simp only [store_same, Option.some.injEq] at hg
      rw [← hg]
      exact hc
    · simp only [store_other _ _ _ _ hq] at hg
      exact h1 q g hg
  · intro i ino q hino hq
    obtain ⟨g, hg, hgi⟩ := h2 i ino q hino hq
    by_cases hqp : q = p
    · subst hqp
      rw [hf] at hg
      cases hg
      exact ⟨_, store_same _ _ _, hgi⟩
    · exact ⟨g, by simp only [store_other _ _ _ _ hqp]; exact hg, hgi⟩

/-- The invariant is kept when a live object is freed and unlinked from its owner's
list. -/
theorem listed_live_destroy (w w1 : world) (p : fd_ptr) (f : fd_t) (i : inode_ptr)
    (ino : inode_t) (hinv : listed_live w) (hf : w.fd p = some f) (hi : f.inode = some i)
    (hino : w.inode i = some ino) (hfd : w1.fd = store w.fd p none)
    (hin : w1.inode = store w.inode i (some (list_del_init p ino))) :
    listed_live w1 := by
  obtain ⟨h1, h2⟩ := hinv
  constructor
  · intro q g hg
    rw [hfd] at hg
    by_cases hq : q = p
    · subst hq
      simp [store_same] at hg
    · simp only [store_other _ _ _ _ hq] at hg
      exact h1 q g hg
  · intro j inoj q hj hq
    rw [hin] at hj
    rw [hfd]
    by_cases hji : j = i
    · subst hji
      simp only [store_same, Option.some.injEq] at hj
      rw [← hj] at hq
      simp only [list_del_init, List.mem_filter, decide_eq_true_eq] at hq
      obtain ⟨g, hg, hgi⟩ := h2 j ino q hino hq.1
      exact ⟨g, by simp only [store_other _ _ _ _ hq.2]; exact hg, hgi⟩
    · simp only [store_other _ _ _ _ hji] at hj
      obtain ⟨g, hg, hgi⟩ := h2 j inoj q hj hq
      have hqp : q ≠ p := by
        intro hqp
        subst hqp
        rw [hf] at hg
        cases hg
        rw [hi] at hgi
        cases hgi
        exact hji rfl
      exact ⟨g, by simp only [store_other _ _ _ _ hqp]; exact hg, hgi⟩

/-- Every reachable heap satisfies the invariant. -/
theorem reachable_world_listed_live (w : world) (h : reachable_world w) : listed_live w := by
  induction h with
  | init w h1 h2 =>
    constructor
    · intro p f hf
      rw [h1 p] at hf
      cases hf
    · intro i ino q hino hq
      rw [h2 i ino hino] at hq
      simp at hq
  | create w w1 inode pid p r _ hfresh h ih =>
    cases inode with
    | none =>
      simp [fd_create] at h
      rw [← h.2]
      exact ih
    | some i =>
      cases hino : w.inode i with
      | none => simp [fd_create, hino] at h
      | some ino =>
        simp only [fd_create, hino, Option.some.injEq, Prod.mk.injEq] at h
        obtain ⟨_, rfl⟩ := h
        obtain ⟨h1, h2⟩ := ih
        constructor
        · intro q g hg
          by_cases hq : q = p
          · subst hq
            simp only [store_same, Option.some.injEq] at hg
            rw [← hg]
            simp [_fd_ref]
          · simp only [store_other _ _ _ _ hq] at hg
            exact h1 q g hg
        · intro j inoj q hj hq
          obtain ⟨g, hg, hgi⟩ := h2 j inoj q hj hq
          have hqp : q ≠ p := by
            intro hqp
            subst hqp
            rw [hfresh] at hg
            cases hg
          exact ⟨g, by simp only [store_other _ _ _ _ hqp]; exact hg, hgi⟩
  | bind w w1 p r _ _ h ih =>
    cases hf : w.fd p with
    | none => simp [fd_bind, hf] at h
    | some f =>
      cases hi : f.inode with
      | none => simp [fd_bind, hf, hi] at h
      | some i =>
        cases hino : w.inode i with
        | none => simp [fd_bind, hf, hi, hino] at h
        | some ino =>
          simp only [fd_bind, hf, hi, hino] at h
          split at h
          · cases h
          simp only [Option.some.injEq, Prod.mk.injEq] at h
          obtain ⟨_, rfl⟩ := h
          obtain ⟨h1, h2⟩ := ih
          refine ⟨h1, ?_⟩
          intro j inoj q hj hq
          by_cases hji : j = i
          · subst hji
            simp only [store_same, Option.some.injEq] at hj
            rw [← hj] at hq
            simp only [List.mem_cons] at hq
            rcases hq with rfl | hq
            · exact ⟨f, hf, hi⟩
            · exact h2 j ino q hino hq
          · simp only [store_other _ _ _ _ hji] at hj
            exact h2 j inoj q hj hq
  | ref w w1 fd r _ h ih =>
    rcases fd_ref_inv fd r w w1 h with rfl | ⟨p, f, hf, rfl⟩
    · exact ih
    · exact listed_live_set_count w p f _ ih hf (by omega)
  | unref w w1 fd _ h ih =>
    rcases fd_unref_inv fd w w1 h with rfl | ⟨p, f, hf, hc, rfl⟩ | ⟨p, f, i, ino, hf, hi, hino, hfd, hin⟩
    · exact ih
    · exact listed_live_set_count w p f _ ih hf (by omega)
    · exact listed_live_destroy w w1 p f i ino ih hf hi hino hfd hin
  | lookup w w1 inode pid r _ h ih =>
    rcases fd_lookup_inv inode pid r w w1 h with rfl | ⟨p, f, hf, rfl⟩
    · exact ih
    · exact listed_live_set_count w p f _ ih hf (by omega)

/-- C16: in every heap reachable from `fd_create` through `fd_bind`, `fd_ref`, `fd_unref`
and `fd_lookup`, each entry of an owner's open-handle list is a live handle object of
this owner with a count above zero; no live object has the count zero; and in the state
that `_fd_unref` leaves when it has brought a count to zero, the object is on no list. -/
theorem listed_handles_are_live (w : world) (h : reachable_world w) :
    (∀ i ino q, w.inode i = some ino → q ∈ ino.fd_list →
      ∃ f, w.fd q = some f ∧ 0 < f.refcount ∧ f.inode = some i) ∧
    (∀ p f, w.fd p = some f → 0 < f.refcount) ∧
    (∀ p w1 f1, _fd_unref p w = some w1 → w1.fd p = some f1 → f1.refcount = 0 →
      ∀ j inoj, w1.inode j = some inoj → p ∉ inoj.fd_list) := by
  obtain ⟨h1, h2⟩ := reachable_world_listed_live w h
  refine ⟨?_, h1, ?_⟩
  · intro i ino q hino hq
    obtain ⟨f, hf, hfi⟩ := h2 i ino q hino hq
    exact ⟨f, hf, h1 q f hf, hfi⟩
  · intro p w1 f1 hu hf1 hz j inoj hj hmem
    cases hf : w.fd p with
    | none => simp [_fd_unref, hf] at hu
    | some f =>
      cases hi : f.inode with
      | none => simp [_fd_unref, hf, hi] at hu
      | some i =>
        cases hino : w.inode i with
        | none => simp [_fd_unref, hf, hi, hino] at hu
        | some ino =>
          by_cases h0 : f.refcount = 0
          · simp [_fd_unref, hf, hi, hino, h0] at hu
          · by_cases hlast : f.refcount - 1 = 0
            · simp only [_fd_unref, hf, hi, hino, h0, hlast, if_true, if_false,
                Option.some.injEq] at hu
              subst hu
              by_cases hji : j = i
              · subst hji
                simp only [store_same, Option.some.injEq] at hj
                rw [← hj] at hmem
                simp [list_del_init] at hmem
              · simp only [store_other _ _ _ _ hji] at hj
                obtain ⟨g, hg, hgi⟩ := h2 j inoj p hj hmem
                rw [hf] at hg
                cases hg
                rw [hi] at hgi
                cases hgi
                exact hji rfl
            · simp only [_fd_unref, hf, hi, hino, h0, hlast, if_false,
                Option.some.injEq] at hu
              subst hu
              simp only [store_same, Option.some.injEq] at hf1
              rw [← hf1] at hz
              exact hlast hz

/-- The heap `world_bound` is reachable: `fd_create`, then `fd_bind`. -/
theorem world_bound_reachable : reachable_world world_bound := by
  have h0 : reachable_world world_empty :=
    reachable_world.init world_empty (fun _ => rfl) (by
      intro i ino h
      by_cases hi : i = 0
      · subst hi
        simp only [world_empty, if_true, Option.some.injEq] at h
        rw [← h]
      · simp [world_empty, hi] at h)
  have h1 : reachable_world world_created :=
    reachable_world.create world_empty world_created (some 0) 7 1 (some 1) h0 rfl rfl
  refine reachable_world.bind world_created world_bound 1 (some 1) h1 ?_ rfl
  intro i ino h
  by_cases hi : i = 0
  · subst hi
    have : world_created.inode 0 = some ⟨false, [], []⟩ := rfl
    rw [this] at h
    cases h
    simp
  · have : world_created.inode i = none := by
      show world_empty.inode i = none
      simp [world_empty, hi]
    rw [this] at h
    cases h

/-- Witness of C16 on the reachable heap `world_bound`, whose owner lists the object at
address `1`. -/
theorem listed_handles_are_live_witness :
    ∃ f, world_bound.fd 1 = some f ∧ 0 < f.refcount ∧ f.inode = some 0 :=
  (listed_handles_are_live world_bound world_bound_reachable).1 0 ⟨false, [1], []⟩ 1 rfl
    (by simp)
/-! ## The owner's list and the order of binding -/

/-- The scan of `fd_lookup` for a non-zero pid stops at the first live entry with this
pid when the entries before it are live and have another pid. -/
theorem fd_lookup_scan_first_match (w : world) (pid : Int) (hpid : pid ≠ 0)
    (l1 : List fd_ptr) (q : fd_ptr) (l2 : List fd_ptr) (f : fd_t) (hf : w.fd q = some f)
    (hp : f.pid = pid) (hl1 : ∀ r ∈ l1, ∃ g, w.fd r = some g ∧ g.pid ≠ pid) :
    fd_lookup_scan w pid (l1 ++ q :: l2) = some (some q) := by
  induction l1 with
  | nil => simp [fd_lookup_scan, hf, hpid, hp]
  | cons a l1 ih =>
    obtain ⟨g, hg, hne⟩ := hl1 a (by simp)
    have hstep : fd_lookup_scan w pid (a :: l1 ++ q :: l2)
        = fd_lookup_scan w pid (l1 ++ q :: l2) := by
      simp [fd_lookup_scan, hg, hpid, hne]
    rw [hstep]
    exact ih (fun r hr => hl1 r (by simp [hr]))

/-- The handles bound to `i` in a record extended by one binding. -/
theorem bound_order_append (log : List (inode_ptr × fd_ptr)) (j i : inode_ptr) (p : fd_ptr) :
    bound_order (log ++ [(j, p)]) i
      = if j = i then bound_order log i ++ [p] else bound_order log i := by
  by_cases h : j = i <;> simp [bound_order, List.filter_append, h]

/-- Removing a handle from the record removes it from the handles bound to `i` and keeps
the order of the others. -/
theorem bound_order_filter (log : List (inode_ptr × fd_ptr)) (i : inode_ptr) (p : fd_ptr) :
    bound_order (log.filter (fun e => e.2 ≠ p)) i
      = (bound_order log i).filter (fun q => q ≠ p) := by
  simp only [bound_order, List.filter_map, List.filter_filter]
  congr 1
  apply List.filter_congr
  intro a _
  simp [Bool.and_comm]

/-- A call of `fd_create` with a result leaves the owners' lists as they are. -/
theorem fd_create_inode (inode : Option inode_ptr) (pid : Int) (p : fd_ptr)
    (w : world) (r : Option fd_ptr × world) (h : fd_create inode pid p w = some r) :
    r.2.inode = w.inode := by
  cases inode with
  | none =>
    simp [fd_create] at h
    rw [← h]
  | some i =>
    cases hino : w.inode i with
    | none => simp [fd_create, hino] at h
    | some ino =>
      simp only [fd_create, hino, Option.some.injEq] at h
      rw [← h]

/-- A call of `fd_bind` with a result is a call on a live object with a live owner whose
list does not contain it, and it puts the object at the head of this list. -/
theorem fd_bind_inv (p : fd_ptr) (w : world) (r : Option fd_ptr × world)
    (h : fd_bind (some p) w = some r) :
    ∃ f i ino, w.fd p = some f ∧ f.inode = some i ∧ w.inode i = some ino ∧
      p ∉ ino.fd_list ∧
      r.2 = { w with
              inode := store w.inode i (some { ino with fd_list := p :: ino.fd_list }) } := by
  cases hf : w.fd p with
  | none => simp [fd_bind, hf] at h
  | some f =>
    cases hi : f.inode with
    | none => simp [fd_bind, hf, hi] at h
    | some i =>
      cases hino : w.inode i with
      | none => simp [fd_bind, hf, hi, hino] at h
      | some ino =>
        simp only [fd_bind, hf, hi, hino] at h
        split at h
        · cases h
        · rename_i hnot
          simp only [Option.some.injEq] at h
          exact ⟨f, i, ino, rfl, hi, hino, hnot, by rw [← h]⟩

/-- A call `fd_unref (p)` with a result is a call on a live object with a live owner: it
lowers a count above one by one, or it frees the object whose count is one and removes
it from its owner's list. -/
theorem fd_unref_some_inv (p : fd_ptr) (w w1 : world) (h : fd_unref (some p) w = some w1) :
    ∃ f i ino, w.fd p = some f ∧ f.inode = some i ∧ w.inode i = some ino ∧
      ((1 < f.refcount ∧
          w1 = { w with fd := store w.fd p (some { f with refcount := f.refcount - 1 }) }) ∨
        (f.refcount = 1 ∧ w1.fd = store w.fd p none ∧
          w1.inode = store w.inode i (some (list_del_init p ino)))) := by
  cases hf : w.fd p with
  | none => simp [fd_unref, hf] at h
  | some f =>
    cases hi : f.inode with
    | none => simp [fd_unref, hf, hi] at h
    | some i =>
      cases hino : w.inode i with
      | none => simp [fd_unref, hf, hi, hino] at h
      | some ino =>
        by_cases h0 : f.refcount = 0
        · simp [fd_unref, hf, hi, hino, h0] at h
        · by_cases h1 : f.refcount = 1
          · rw [fd_unref_last w p f i ino hf hi hino h1] at h
            simp only [Option.some.injEq] at h
            exact ⟨f, i, ino, rfl, hi, hino, Or.inr ⟨h1, by rw [← h], by rw [← h]⟩⟩
          · rw [fd_unref_live w p f i ino hf hi hino (by omega)] at h
            simp only [Option.some.injEq] at h
            exact ⟨f, i, ino, rfl, hi, hino, Or.inl ⟨by omega, h.symm⟩⟩

/-- One call takes a reachable heap to a reachable heap. -/
theorem fd_step_reachable (op : fd_op) (w w1 : world) (hr : reachable_world w)
    (h : fd_step op w = some w1) : reachable_world w1 := by
  cases op with
  | create inode pid p =>
    simp only [fd_step] at h
    split at h
    · cases h
    · rename_i hfresh
      cases hc : fd_create inode pid p w with
      | none => simp [hc] at h
      | some r =>
        simp only [hc, Option.map_some', Option.some.injEq] at h
        subst h
        exact reachable_world.create w r.2 inode pid p r.1 hr (by simpa using hfresh) hc
  | bind p =>
    cases hb : fd_bind (some p) w with
    | none => simp [fd_step, hb] at h
    | some r =>
      simp only [fd_step, hb, Option.map_some', Option.some.injEq] at h
      subst h
      obtain ⟨f, i0, ino0, hf, hi, hino, hnot, _⟩ := fd_bind_inv p w r hb
      refine reachable_world.bind w r.2 p r.1 hr ?_ hb
      intro i ino hin hmem
      obtain ⟨g, hg, hgi⟩ := (reachable_world_listed_live w hr).2 i ino p hin hmem
      rw [hf] at hg
      cases hg
      rw [hi] at hgi
      cases hgi
      rw [hino] at hin
      cases hin
      exact hnot hmem
  | ref fd =>
    cases hc : fd_ref fd w with
    | none => simp [fd_step, hc] at h
    | some r =>
      simp only [fd_step, hc, Option.map_some', Option.some.injEq] at h
      subst h
      exact reachable_world.ref w r.2 fd r.1 hr hc
  | unref fd => exact reachable_world.unref w w1 fd hr h
  | lookup inode pid =>
    cases hc : fd_lookup inode pid w with
    | none => simp [fd_step, hc] at h
    | some r =>
      simp only [fd_step, hc, Option.map_some', Option.some.injEq] at h
      subst h
      exact reachable_world.lookup w r.2 inode pid r.1 hr hc

/-- One call keeps the correspondence between the owners' lists and the record of the
bindings: each list is the handles bound to this owner and still open, the most recently
bound first. -/
theorem fd_step_bound_order (op : fd_op) (w w1 : world) (log : List (inode_ptr × fd_ptr))
    (hr : reachable_world w)
    (hinv : ∀ i ino, w.inode i = some ino → ino.fd_list = (bound_order log i).reverse)
    (h : fd_step op w = some w1) :
    ∀ i ino, w1.inode i = some ino →
      ino.fd_list = (bound_order (bound_step op w w1 log) i).reverse := by
  have hsame : w1.inode = w.inode → bound_step op w w1 log = log →
      ∀ i ino, w1.inode i = some ino →
        ino.fd_list = (bound_order (bound_step op w w1 log) i).reverse := by
    intro h1 h2 i ino hin
    rw [h2]
    rw [h1] at hin
    exact hinv i ino hin
  cases op with
  | create inode pid p =>
    simp only [fd_step] at h
    split at h
    · cases h
    · cases hc : fd_create inode pid p w with
      | none => simp [hc] at h
      | some r =>
        simp only [hc, Option.map_some', Option.some.injEq] at h
        subst h
        exact hsame (fd_create_inode inode pid p w r hc) rfl
  | ref fd =>
    cases hc : fd_ref fd w with
    | none => simp [fd_step, hc] at h
    | some r =>
      simp only [fd_step, hc, Option.map_some', Option.some.injEq] at h
      subst h
      rcases fd_ref_inv fd r.1 w r.2 hc with he | ⟨q, g, _, he⟩
      · exact hsame (by rw [he]) rfl
      · exact hsame (by rw [he]) rfl
  | lookup inode pid =>
    cases hc : fd_lookup inode pid w with
    | none => simp [fd_step, hc] at h
    | some r =>
      simp only [fd_step, hc, Option.map_some', Option.some.injEq] at h
      subst h
      rcases fd_lookup_inv inode pid r.1 w r.2 hc with he | ⟨q, g, _, he⟩
      · exact hsame (by rw [he]) rfl
      · exact hsame (by rw [he]) rfl
  | bind p =>
    cases hb : fd_bind (some p) w with
    | none => simp [fd_step, hb] at h
    | some r =>
      simp only [fd_step, hb, Option.map_some', Option.some.injEq] at h
      subst h
      obtain ⟨f, i0, ino0, hf, hi, hino, _, hw⟩ := fd_bind_inv p w r hb
      have hlog : bound_step (fd_op.bind p) w r.2 log = log ++ [(i0, p)] := by
        simp [bound_step, hf, hi]
      intro i ino hin
      rw [hlog, bound_order_append]
      rw [hw] at hin
      by_cases hii : i0 = i
      · subst hii
        simp only [store_same, Option.some.injEq] at hin
        rw [← hin]
        simp only [if_true, List.reverse_append, List.reverse_cons, List.reverse_nil,
          List.nil_append, List.singleton_append]
        rw [hinv i0 ino0 hino]
      · simp only [hii, if_false]
        have hne : i ≠ i0 := fun e => hii e.symm
        simp only [store_other _ _ _ _ hne] at hin
        exact hinv i ino hin
  | unref fd =>
    cases fd with
    | none =>
      simp only [fd_step, fd_unref, Option.some.injEq] at h
      subst h
      exact hsame rfl rfl
    | some p =>
      simp only [fd_step] at h
      obtain ⟨f, i0, ino0, hf, hi, hino, hcase⟩ := fd_unref_some_inv p w w1 h
      rcases hcase with ⟨_, hw⟩ | ⟨_, hfd, hin1⟩
      · have hlog : bound_step (fd_op.unref (some p)) w w1 log = log := by
          simp [bound_step, hw, store_same]
        exact hsame (by rw [hw]) hlog
      · have hlog : bound_step (fd_op.unref (some p)) w w1 log
            = log.filter (fun e => e.2 ≠ p) := by
          simp [bound_step, hfd, store_same]
        intro i ino hin
        rw [hlog, bound_order_filter]
        rw [hin1] at hin
        by_cases hii : i = i0
        · subst hii
          simp only [store_same, Option.some.injEq] at hin
          rw [← hin]
          simp only [list_del_init]
          rw [hinv i ino0 hino, List.filter_reverse]
        · simp only [store_other _ _ _ _ hii] at hin
          have hnot : p ∉ bound_order log i := by
            intro hmem
            have hmem2 : p ∈ ino.fd_list := by
              rw [hinv i ino hin]
              exact List.mem_reverse.mpr hmem
            obtain ⟨g, hg, hgi⟩ := (reachable_world_listed_live w hr).2 i ino p hin hmem2
            rw [hf] at hg
            cases hg
            rw [hi] at hgi
            cases hgi
            exact hii rfl
          have hid : (bound_order log i).filter (fun q => q ≠ p) = bound_order log i := by
            rw [List.filter_eq_self]
            intro a ha
            have : a ≠ p := fun e => hnot (e ▸ ha)
            simpa using this
          rw [hid]
          exact hinv i ino hin

/-- A sequence of calls takes a reachable heap to a reachable heap and keeps the
correspondence between the owners' lists and the record of the bindings. -/
theorem run_fd_ops_bound_order (ops : List fd_op) :
    ∀ (w : world) (log : List (inode_ptr × fd_ptr)) (w1 : world)
      (log1 : List (inode_ptr × fd_ptr)), reachable_world w →
      (∀ i ino, w.inode i = some ino → ino.fd_list = (bound_order log i).reverse) →
      run_fd_ops ops w log = some (w1, log1) →
      reachable_world w1 ∧
      ∀ i ino, w1.inode i = some ino → ino.fd_list = (bound_order log1 i).reverse := by
  induction ops with
  | nil =>
    intro w log w1 log1 hr hinv h
    simp only [run_fd_ops, Option.some.injEq, Prod.mk.injEq] at h
    obtain ⟨rfl, rfl⟩ := h
    exact ⟨hr, hinv⟩
  | cons op ops ih =>
    intro w log w1 log1 hr hinv h
    simp only [run_fd_ops] at h
    split at h
    · cases h
    · rename_i w2 hs
      exact ih w2 _ w1 log1 (fd_step_reachable op w w2 hr hs)
        (fd_step_bound_order op w w2 log hr hinv hs) h

/-- C11, amended: after any sequence of `fd_create`, `fd_bind`, `fd_ref`, `fd_unref` and
`fd_lookup` calls from a heap without handle objects and with empty lists, each owner's
list holds the handles bound to it and still open, the most recently bound first.  So,
when the list is not empty, `fd_lookup` with pid `0` returns the most recently bound
handle that is still open (and raises its count by one), and `fd_lookup` with a non-zero
pid returns the most recently bound handle among those with this pid: a handle `p` with
this pid such that no handle bound later than `p` has it. -/
theorem fd_lookup_most_recently_bound (w0 : world) (ops : List fd_op) (w : world)
    (log : List (inode_ptr × fd_ptr)) (i : inode_ptr) (ino : inode_t)
    (h0 : ∀ p, w0.fd p = none)
    (h0l : ∀ j inoj, w0.inode j = some inoj → inoj.fd_list = [])
    (hrun : run_fd_ops ops w0 [] = some (w, log)) (hino : w.inode i = some ino) :
    ino.fd_list = (bound_order log i).reverse ∧
    (ino.fd_list ≠ [] →
      ∃ earlier p f, bound_order log i = earlier ++ [p] ∧ w.fd p = some f ∧
        fd_lookup i 0 w
          = some (some p,
              { w with fd := store w.fd p (some { f with refcount := f.refcount + 1 }) })) ∧
    (∀ pid earlier p later f, pid ≠ 0 → bound_order log i = earlier ++ p :: later →
      w.fd p = some f → f.pid = pid →
      (∀ r ∈ later, ∀ g, w.fd r = some g → g.pid ≠ pid) →
      fd_lookup i pid w
        = some (some p,
            { w with fd := store w.fd p (some { f with refcount := f.refcount + 1 }) })) := by
  obtain ⟨hr, hinv⟩ := run_fd_ops_bound_order ops w0 [] w log
    (reachable_world.init w0 h0 h0l)
    (fun j inoj hj => by rw [h0l j inoj hj]; rfl) hrun
  have hl := hinv i ino hino
  have hlive : ∀ q ∈ ino.fd_list, ∃ g, w.fd q = some g := by
    intro q hq
    obtain ⟨g, hg, _⟩ := (reachable_world_listed_live w hr).2 i ino q hino hq
    exact ⟨g, hg⟩
  refine ⟨hl, ?_, ?_⟩
  · intro hne
    cases hlist : ino.fd_list with
    | nil => exact absurd hlist hne
    | cons q rest =>
      obtain ⟨f, hf⟩ := hlive q (by rw [hlist]; simp)
      have hb : bound_order log i = rest.reverse ++ [q] := by
        have h2 : (bound_order log i).reverse.reverse = (q :: rest).reverse := by
          rw [← hl, hlist]
        rw [List.reverse_reverse] at h2
        rw [h2, List.reverse_cons]
      have hsc : fd_lookup_scan w 0 ino.fd_list = some (some q) := by
        rw [hlist]
        simp [fd_lookup_scan, hf]
      exact ⟨rest.reverse, q, f, hb, hf, fd_lookup_some w i ino 0 q f hino hsc hf⟩
  · intro pid earlier p later f hpid hb hf hp hlater
    have hlist : ino.fd_list = later.reverse ++ p :: earlier.reverse := by
      rw [hl, hb]
      simp
    have hsc : fd_lookup_scan w pid ino.fd_list = some (some p) := by
      rw [hlist]
      apply fd_lookup_scan_first_match w pid hpid later.reverse p earlier.reverse f hf hp
      intro r hr
      have hr2 : r ∈ later := List.mem_reverse.mp hr
      obtain ⟨g, hg⟩ := hlive r (by rw [hlist]; simp [hr2])
      exact ⟨g, hg, hlater r hr2 g hg⟩
    exact fd_lookup_some w i ino pid p f hino hsc hf

/-- Witness of the amended C11: after create and bind of the object at `1` and then of
the object at `2` (both with pid `7`), the record is `1` then `2` and `fd_lookup` with
pid `7` returns the object at `2`, the one bound last. -/
theorem fd_lookup_most_recently_bound_witness :
    run_fd_ops [fd_op.create (some 0) 7 1, fd_op.bind 1, fd_op.create (some 0) 7 2,
        fd_op.bind 2] world_empty [] = some (world_two, [(0, 1), (0, 2)]) ∧
    (world_two.inode 0).map (fun x => x.fd_list) = some [2, 1] ∧
    bound_order [(0, 1), (0, 2)] 0 = [1, 2] ∧
    fd_lookup 0 7 world_two
      = some (some 2,
          { world_two with fd := store world_two.fd 2 (some ⟨7, some 0, 2, []⟩) }) :=
  ⟨rfl, rfl, rfl,
    (fd_lookup_most_recently_bound world_empty
      [fd_op.create (some 0) 7 1, fd_op.bind 1, fd_op.create (some 0) 7 2, fd_op.bind 2]
      world_two [(0, 1), (0, 2)] 0 ⟨false, [2, 1], []⟩ (fun _ => rfl)
      (by
        intro j inoj h
        by_cases hj : j = 0
        · subst hj
          simp only [world_empty, if_true, Option.some.injEq] at h
          rw [← h]
        · simp [world_empty, hj] at h)
      rfl rfl).2.2 7 [1] 2 [] ⟨7, some 0, 1, []⟩ (by decide) rfl rfl rfl
      (fun r hr => by simp at hr)⟩

end GlusterFd
